import Mathlib

/-!
# Verification of the `agency` dependency-gated task scheduler

Shallow embedding of the `agency` Node.js library (`index.js`, `lib/agent.js`)
and proofs about its dependency-expression parser, evaluator, and scheduler.

JavaScript strings are modelled as Lean `String`s, JavaScript values that flow
through agent results as `JSValue`, and the single-threaded event loop
(`setTimeout` queue) as an explicit queue of deferred completion bodies with a
nondeterministic step relation choosing which queued body runs next.
-/

set_option maxRecDepth 10000

namespace Agency

/-! ## JavaScript values and truthiness -/

/-- A JavaScript value as it can appear in an agent's `result` field:
numbers, booleans, strings, `null`, `undefined`, or a thrown `Error` object. -/
inductive JSValue where
  | num (n : Int)
  | bool (b : Bool)
  | str (s : String)
  | null
  | undefined
  | errObj
deriving DecidableEq, Repr

/-- JavaScript truthiness of a `JSValue` (`if (v)`).  `0`, `false`, `""`,
`null` and `undefined` are falsy; Error objects are truthy. -/
def JSValue.truthy : JSValue → Bool
  | .num n => decide (n ≠ 0)
  | .bool b => b
  | .str s => decide (s ≠ "")
  | .null => false
  | .undefined => false
  | .errObj => true

/-! ## Character classes used by the parser (`lib/agent.js`) -/

/-- ASCII letter or digit, the class `[a-zA-Z0-9]` of the JavaScript regexes. -/
def alnumChar (c : Char) : Bool :=
  ('a' ≤ c && c ≤ 'z') || ('A' ≤ c && c ≤ 'Z') || ('0' ≤ c && c ≤ '9')

/-- The class `[a-zA-Z0-9_]` (identifier characters, legend symbol `#`). -/
def idChar (c : Char) : Bool :=
  alnumChar c || c = '_'

/-- The class `[^a-zA-Z0-9_&|!()_]` used by `testInvalidChar`:
true iff `c` is NOT an accepted expression character. -/
def invalidExprChar (c : Char) : Bool :=
  !(idChar c || c = '&' || c = '|' || c = '!' || c = '(' || c = ')')

/-! ## Parser errors (`parseExpression` in `lib/agent.js`) -/

/-- The failure outcomes of `parseExpression`.  The first six model the
`Error` values the function returns; `undefinedRule` models the `TypeError`
thrown (uncaught) when the rule table `rules[key]` has no entry for the
current key, i.e. `rules[key].test` dereferences `undefined`. -/
inductive ParseErr where
  | invalidExpression
  | invalidCharacter (pos : Nat)
  | unopenedParentheses
  | unclosedParentheses
  | invalidTerminator
  | selfDependency
  | undefinedRule
deriving DecidableEq, Repr

/-- Successful output of `parseExpression`: the space-stripped expression,
the ordered token list (`tokenizedExpression`) and the de-duplicated
dependency list (`dependencies`). -/
structure ParsedExpr where
  expression : String
  toks : List String
  deps : List String
deriving DecidableEq, Repr

/-- `arrayGetUniques` from `lib/agent.js`: de-duplicate, keeping first
occurrences and dropping empty strings. -/
def arrayGetUniques (arr : List String) : List String :=
  arr.foldl (fun a x => if a.contains x || x = "" then a else a ++ [x]) []

/-- The parser's rule table `rules` keyed by
(position class, char two back collapsed, previous char collapsed).
`none` models a missing key (whose lookup throws in the original). -/
def rules : Char → Char → Char → Option (Char → Bool)
  | '1', '?', '?' => some fun c => idChar c || c = '(' || c = '!'
  | 'n', '?', '(' => some fun c => idChar c || c = '(' || c = '!'
  | 'n', '?', '#' => some fun c => idChar c || c = ')' || c = '&' || c = '|'
  | 'n', '?', '!' => some fun c => idChar c || c = '('
  | 'n', '?', ')' => some fun c => c = '&' || c = '|' || c = ')'
  | 'n', '?', '&' => some fun c => c = '&'
  | 'n', '&', '&' => some fun c => idChar c || c = '(' || c = '!'
  | 'n', '&', '#' => some fun c => idChar c || c = ')' || c = '&' || c = '|'
  | 'n', '&', '(' => some fun c => idChar c || c = '(' || c = '!'
  | 'n', '?', '|' => some fun c => c = '|'
  | 'n', '|', '|' => some fun c => idChar c || c = '(' || c = '!'
  | 'n', '|', '(' => some fun c => idChar c || c = '(' || c = '!'
  | 'n', '|', '#' => some fun c => idChar c || c = ')' || c = '&' || c = '|'
  | 'n', '|', '&' => some fun _ => false
  | 'n', '&', '|' => some fun _ => false
  | _, _, _ => none

/-- Mutable state of the character-walking loop inside `parseExpression`. -/
structure PState where
  prevprev : Char
  prev : Char
  rbrackets : Nat
  tmpparent : String
  tmpexpression : String
  parentList : List String
  toks : List String
deriving Repr

/-- The token-accumulation tail of the loop body of `parseExpression`
(`// handle parent list and tokenized expression`): updates the parser state
or fails with `SelfDependency`. -/
def tokStep (id : String) (len : Nat) (i : Nat) (st : PState) (head : Char) :
    Except ParseErr PState :=
  if idChar head then
    let st :=
      if st.tmpexpression ≠ "" then
        { st with toks := st.toks ++ [st.tmpexpression], tmpexpression := "" }
      else st
    if len = 1 then
      if id = head.toString then .error .selfDependency
      else
        .ok { st with parentList := st.parentList ++ [head.toString],
                      toks := st.toks ++ [head.toString] }
    else
      if i = len - 1 then
        let tmpparent := st.tmpparent.push head
        if id = tmpparent then .error .selfDependency
        else
          .ok { st with tmpparent := tmpparent,
                        parentList := st.parentList ++ [tmpparent],
                        toks := st.toks ++ [tmpparent] }
      else
        .ok { st with tmpparent := st.tmpparent.push head }
  else
    let flushed :=
      if st.tmpparent ≠ "" then
        if id = st.tmpparent then none
        else some { st with parentList := st.parentList ++ [st.tmpparent],
                            toks := st.toks ++ [st.tmpparent], tmpparent := "" }
      else some st
    match flushed with
    | none => .error .selfDependency
    | some st =>
      let st := { st with tmpexpression := st.tmpexpression.push head }
      let st :=
        if i = len - 1 then
          { st with toks := st.toks ++ [st.tmpexpression] }
        else st
      .ok st

/-- The `for` loop of `parseExpression`, processing the remaining characters
`cs` starting at index `i`; `len` is the total length of the space-stripped
expression and `id` the owning agent's id. -/
def parseLoop (id : String) (len : Nat) : Nat → PState → List Char →
    Except ParseErr (List String × List String)
  | _, st, [] => .ok (st.toks, arrayGetUniques st.parentList)
  | i, st, head :: rest =>
    let pos := if i = 0 then '1' else 'n'
    match rules pos st.prevprev st.prev with
    | none => .error .undefinedRule
    | some cls =>
      if !cls head then .error (.invalidCharacter (i + 1))
      else
        let rbrackets :=
          if head = '(' then st.rbrackets + 1 else st.rbrackets
        if head = ')' && rbrackets = 0 then .error .unopenedParentheses
        else
          let rbrackets := if head = ')' then rbrackets - 1 else rbrackets
          -- last-character handling: terminator and parenthesis-balance check
          if rest = [] then
            if alnumChar head || head = ')' then
              if rbrackets ≠ 0 then .error .unclosedParentheses
              else
                match tokStep id len i { st with rbrackets := rbrackets } head with
                | .error e => .error e
                | .ok st' => parseLoop id len (i + 1) st' rest
            else .error .invalidTerminator
          else
            let prevprev := if st.prev = '&' || st.prev = '|' then st.prev else '?'
            let prev := if idChar head then '#' else head
            match tokStep id len i
                { st with rbrackets := rbrackets, prevprev := prevprev, prev := prev }
                head with
            | .error e => .error e
            | .ok st' => parseLoop id len (i + 1) st' rest

/-- `expr.replace(/\040/g, '')`: remove every space character. -/
def stripSpaces (expr : String) : String :=
  String.mk (expr.toList.filter (fun c => c ≠ ' '))

/-- JavaScript `expr && expr.trim()` is truthy iff `expr` contains some
non-whitespace character. -/
def hasNonSpace (expr : String) : Bool :=
  expr.toList.any (fun c => !(c = ' ' || c = '\t' || c = '\n' || c = '\r'))

/-- `parseExpression` from `lib/agent.js` for owning agent `id`: validates the
dependency expression and produces the tokenized expression and dependency
list (an absent expression is modelled as `""`). -/
def parseExpression (id : String) (expr : String) : Except ParseErr ParsedExpr :=
  if hasNonSpace expr then
    let parsedExpression := stripSpaces expr
    if parsedExpression.toList.any invalidExprChar then .error .invalidExpression
    else
      match parseLoop id parsedExpression.toList.length 0
          ⟨'?', '?', 0, "", "", [], []⟩ parsedExpression.toList with
      | .error e => .error e
      | .ok (toks, deps) =>
        .ok { expression := parsedExpression, toks := toks, deps := deps }
  else
    .ok { expression := "", toks := [], deps := [] }

/-! ## Agents (`lib/agent.js` state) and the registry -/

/-- Outcome of an agent's user-supplied function when invoked: it returns a
value or throws. -/
inductive FuncOutcome where
  | retVal (v : JSValue)
  | throws
deriving DecidableEq, Repr

/-- The private properties of one agent (closure state in `lib/agent.js`),
after creation.  Flags that are `undefined` in failed creations are modelled
as `false` (`undefined` and `false` behave identically in every boolean
context the code uses them in).  `hasFunc` records whether `setFunction`
installed a unit of work, `funcOutcome` what that unit of work does when run,
and `dispatchCount` is a ghost counter of `Pending → Dispatched` transitions
(each time `execute` hands the work to `setTimeout`). -/
structure AgentRec where
  id : String
  expression : String
  toks : List String
  deps : List String
  canExecute : Bool
  executed : Bool
  waitingExec : Bool
  deffDepCheck : Bool
  haltsExecution : Bool
  hasFunc : Bool
  funcOutcome : FuncOutcome
  result : JSValue
  dispatchCount : Nat
deriving DecidableEq, Repr

/-- Scan-time evaluation error (the `Error` with `err.error =
'InvalidDependency'` returned by `hasAgentExecuted`; the spec calls it
`InvalidDependencyReference`). -/
inductive EvalErr where
  | invalidDependency (dep : String)
deriving DecidableEq, Repr

/-- `hasAgentExecuted` from `index.js`: readiness of `dependency` for
`currAgent`, scanning `agentsList` for the first agent with that id.
Without `deffDepCheck` readiness is `executed`; with it,
`executed ? true : waitingExec`. -/
def hasAgentExecuted (agentsList : List AgentRec) (dependency : String)
    (currAgent : AgentRec) : Except EvalErr Bool :=
  match agentsList with
  | [] => .error (.invalidDependency dependency)
  | ag :: rest =>
    if ag.id = dependency then
      if !currAgent.deffDepCheck then .ok ag.executed
      else .ok (if ag.executed then true else ag.waitingExec)
    else hasAgentExecuted rest dependency currAgent

/-- An element of the working token array inside `evaluateLogicalExpression`:
originally the string tokens of the expression; `replaceByLogicalValue`
overwrites matching elements with JavaScript booleans. -/
inductive Tok where
  | str (s : String)
  | bool (b : Bool)
deriving DecidableEq, Repr

/-- `replaceByLogicalValue` from `index.js`: every element strictly equal
(`===`) to the string `id` is replaced by the boolean `b` (a boolean element
is never `===` a string, so earlier replacements are left alone). -/
def replaceByLogicalValue (tokenArray : List Tok) (id : String) (b : Bool) :
    List Tok :=
  tokenArray.map (fun t => if t = .str id then .bool b else t)

/-- `ret.join('')`: JavaScript stringifies booleans as `true` / `false`. -/
def joinToks (ts : List Tok) : String :=
  ts.foldl (fun acc t =>
    acc ++ match t with
           | .str s => s
           | .bool b => if b then "true" else "false") ""

/-! ### Model of the JavaScript `eval` on substituted boolean formulas

`evaluateLogicalExpression` hands the joined string to the host-language
`eval`.  On the strings that arise here (built from `true`, `false`, `&&`,
`||`, `!`, `(`, `)`), JavaScript parses with `!` binding tightest, then `&&`,
then `||` (left-associative), and evaluates the resulting expression; the
result is a boolean.  The functions below model that: a fuel-indexed
recursive descent producing the value, `none` modelling a thrown
`SyntaxError` (which would escape `runAgents` uncaught). -/

/-- Parse a boolean literal `true` / `false` at the head of the input. -/
def parseLit : List Char → Option (Bool × List Char)
  | 't' :: 'r' :: 'u' :: 'e' :: rest => some (true, rest)
  | 'f' :: 'a' :: 'l' :: 's' :: 'e' :: rest => some (false, rest)
  | _ => none

mutual

/-- Unary level: `!` chains and parenthesised groups, else a literal. -/
def jsUnary : Nat → List Char → Option (Bool × List Char)
  | 0, _ => none
  | _ + 1, [] => parseLit []
  | f + 1, c :: rest =>
    if c = '!' then
      match jsUnary f rest with
      | some (b, r) => some (!b, r)
      | none => none
    else if c = '(' then
      match jsOr f rest with
      | some (b, r) =>
        match r with
        | [] => none
        | c2 :: r2 => if c2 = ')' then some (b, r2) else none
      | none => none
    else parseLit (c :: rest)

/-- Left-associative continuation of a `&&` chain with accumulated value. -/
def jsAndCont : Nat → Bool → List Char → Option (Bool × List Char)
  | 0, _, _ => none
  | f + 1, b, c1 :: c2 :: rest =>
    if c1 = '&' && c2 = '&' then
      match jsUnary f rest with
      | some (b2, r) => jsAndCont f (b && b2) r
      | none => none
    else some (b, c1 :: c2 :: rest)
  | _ + 1, b, cs => some (b, cs)

/-- `&&` level. -/
def jsAnd : Nat → List Char → Option (Bool × List Char)
  | 0, _ => none
  | f + 1, cs =>
    match jsUnary f cs with
    | some (b, r) => jsAndCont f b r
    | none => none

/-- Left-associative continuation of a `||` chain with accumulated value. -/
def jsOrCont : Nat → Bool → List Char → Option (Bool × List Char)
  | 0, _, _ => none
  | f + 1, b, c1 :: c2 :: rest =>
    if c1 = '|' && c2 = '|' then
      match jsAnd f rest with
      | some (b2, r) => jsOrCont f (b || b2) r
      | none => none
    else some (b, c1 :: c2 :: rest)
  | _ + 1, b, cs => some (b, cs)

/-- `||` level (top level of the expression grammar). -/
def jsOr : Nat → List Char → Option (Bool × List Char)
  | 0, _ => none
  | f + 1, cs =>
    match jsAnd f cs with
    | some (b, r) => jsOrCont f b r
    | none => none

end

/-- `eval` of a substituted boolean formula: the whole string must be consumed
and yield a boolean; otherwise (`none`) the original would throw. -/
def jsEval (s : String) : Option Bool :=
  match jsOr (s.length + 1) s.toList with
  | some (b, []) => some b
  | _ => none

/-- The substitution loop of `evaluateLogicalExpression`: for each dependency
in order, look up its readiness and replace its occurrences; abort on the
first lookup error, then `eval` the joined result. -/
def evalGo (agents : List AgentRec) (a : AgentRec) :
    List String → List Tok → Except EvalErr (Option Bool)
  | [], ret => .ok (jsEval (joinToks ret))
  | dep :: ds, ret =>
    match hasAgentExecuted agents dep a with
    | .error e => .error e
    | .ok b => evalGo agents a ds (replaceByLogicalValue ret dep b)

/-- `evaluateLogicalExpression` from `index.js`: substitute each dependency's
readiness boolean into the agent's tokenized expression and evaluate it.
The inner `Option Bool` is the `eval` result (`none` = `eval` threw). -/
def evaluateLogicalExpression (agents : List AgentRec) (a : AgentRec) :
    Except EvalErr (Option Bool) :=
  evalGo agents a a.deps (a.toks.map Tok.str)

/-! ### Spec-side boolean formulas ("standard operator semantics")

Following the spec's words, a substituted dependency expression is a boolean
formula with literals, `!` as highest-precedence unary prefix, then `&`
(AND), then `|` (OR), grouping via parentheses.  `BExpr` is the formula,
`BExpr.evalB` its standard truth value, and `specOr` reads a string as such a
formula with exactly that precedence.  These definitions exist to be compared
with the source-derived evaluator above (refinement). -/

/-- A boolean formula under the spec's standard semantics. -/
inductive BExpr where
  | lit (b : Bool)
  | notE (e : BExpr)
  | andE (l r : BExpr)
  | orE (l r : BExpr)
deriving DecidableEq, Repr

/-- Standard truth-value semantics of a boolean formula. -/
def BExpr.evalB : BExpr → Bool
  | .lit b => b
  | .notE e => !e.evalB
  | .andE l r => l.evalB && r.evalB
  | .orE l r => l.evalB || r.evalB

/-- Parse a literal as a formula. -/
def specLit : List Char → Option (BExpr × List Char)
  | 't' :: 'r' :: 'u' :: 'e' :: rest => some (.lit true, rest)
  | 'f' :: 'a' :: 'l' :: 's' :: 'e' :: rest => some (.lit false, rest)
  | _ => none

mutual

/-- Unary level of the spec grammar. -/
def specUnary : Nat → List Char → Option (BExpr × List Char)
  | 0, _ => none
  | _ + 1, [] => specLit []
  | f + 1, c :: rest =>
    if c = '!' then
      match specUnary f rest with
      | some (e, r) => some (.notE e, r)
      | none => none
    else if c = '(' then
      match specOr f rest with
      | some (e, r) =>
        match r with
        | [] => none
        | c2 :: r2 => if c2 = ')' then some (e, r2) else none
      | none => none
    else specLit (c :: rest)

/-- Left-associative `&` chain continuation. -/
def specAndCont : Nat → BExpr → List Char → Option (BExpr × List Char)
  | 0, _, _ => none
  | f + 1, e, c1 :: c2 :: rest =>
    if c1 = '&' && c2 = '&' then
      match specUnary f rest with
      | some (e2, r) => specAndCont f (.andE e e2) r
      | none => none
    else some (e, c1 :: c2 :: rest)
  | _ + 1, e, cs => some (e, cs)

/-- AND level of the spec grammar. -/
def specAnd : Nat → List Char → Option (BExpr × List Char)
  | 0, _ => none
  | f + 1, cs =>
    match specUnary f cs with
    | some (e, r) => specAndCont f e r
    | none => none

/-- Left-associative `|` chain continuation. -/
def specOrCont : Nat → BExpr → List Char → Option (BExpr × List Char)
  | 0, _, _ => none
  | f + 1, e, c1 :: c2 :: rest =>
    if c1 = '|' && c2 = '|' then
      match specAnd f rest with
      | some (e2, r) => specOrCont f (.orE e e2) r
      | none => none
    else some (e, c1 :: c2 :: rest)
  | _ + 1, e, cs => some (e, cs)

/-- OR level (top level) of the spec grammar. -/
def specOr : Nat → List Char → Option (BExpr × List Char)
  | 0, _ => none
  | f + 1, cs =>
    match specAnd f cs with
    | some (e, r) => specOrCont f e r
    | none => none

end

/-- Read a whole string as a boolean formula of the spec grammar. -/
def specParseFormula (s : String) : Option BExpr :=
  match specOr (s.length + 1) s.toList with
  | some (e, []) => some e
  | _ => none

/-! ## The scheduler (`runAgents` in `index.js`) and the event loop

`execute` (in `lib/agent.js`) defers the unit of work with `setTimeout`; the
deferred body is modelled as an entry in `queue` (the agent's index).  The
single-threaded event loop picks a queued body and runs it to completion
(nondeterministic choice covers every completion interleaving).  `crashed`
records an exception escaping a scan (an `eval` failure), which in Node kills
the run: no further events fire.  `reportCount` counts invocations of the
terminal `report()` signal and `execErrors` the indices of agents for which a
scan logged an invalid-dependency execution event (ghost observations). -/

structure AgencyState where
  agents : List AgentRec
  queue : List Nat
  reportCount : Nat
  execErrors : List Nat
  crashed : Bool
deriving DecidableEq, Repr

/-- `hasAgencyCompleted` from `index.js`: no agent is awaiting execution. -/
def hasAgencyCompleted (agents : List AgentRec) : Bool :=
  agents.all (fun a => !a.waitingExec)

/-- `execute` from `lib/agent.js`, up to its deferred body: with a function
set, mark the agent waiting and enqueue the deferred body (ghost-counting the
dispatch); without one, only log (no state change). -/
def executeAgent (s : AgencyState) (i : Nat) : AgencyState :=
  match s.agents[i]? with
  | none => s
  | some a =>
    if a.hasFunc then
      { s with
        agents := s.agents.set i
          { a with waitingExec := true, dispatchCount := a.dispatchCount + 1 },
        queue := s.queue ++ [i] }
    else s

/-- One iteration of the `runAgents` scan for the agent at index `i`. -/
def scanAgent (s : AgencyState) (i : Nat) : AgencyState :=
  match s.agents[i]? with
  | none => s
  | some a =>
    if !a.executed && !a.waitingExec && a.canExecute then
      if a.expression = "" then executeAgent s i
      else
        match evaluateLogicalExpression s.agents a with
        | .error _ => { s with execErrors := s.execErrors ++ [i] }
        | .ok none => { s with crashed := true }
        | .ok (some b) => if b then executeAgent s i else s
    else s

/-- The scan loop over the given indices, then the completion check: if no
agent is waiting, the terminal `report()` fires.  A crash aborts the scan
(the exception propagates out of `runAgents`). -/
def scanFrom (s : AgencyState) : List Nat → AgencyState
  | [] =>
    if hasAgencyCompleted s.agents then { s with reportCount := s.reportCount + 1 }
    else s
  | i :: is =>
    let s' := scanAgent s i
    if s'.crashed then s' else scanFrom s' is

/-- `runAgents` from `index.js`: one full scan of the registry in creation
order, then the completion check. -/
def runAgentsScan (s : AgencyState) : AgencyState :=
  if s.crashed then s else scanFrom s (List.range s.agents.length)

/-- What the `try`/`catch` of the deferred body records for an agent: the
value `setResult` stores (falsy results become `null`, a thrown error is
recorded as the error object) and whether the unit of work threw. -/
def bodyOutcome (a : AgentRec) : JSValue × Bool :=
  match a.funcOutcome with
  | .retVal v => (if v.truthy then v else .null, false)
  | .throws => (.errObj, true)

/-- The deferred body queued by `execute`: run the unit of work, record the
result, mark the agent executed and no longer waiting, then either halt with
the terminal report (`haltsExecution` and a failure) or re-invoke the
scheduler. -/
def runBody (s : AgencyState) (k : Nat) : AgencyState :=
  match s.queue[k]? with
  | none => s
  | some i =>
    match s.agents[i]? with
    | none => s
    | some a =>
      let a' := { a with result := (bodyOutcome a).1, executed := true,
                         waitingExec := false }
      let s1 := { s with agents := s.agents.set i a', queue := s.queue.eraseIdx k }
      if a.haltsExecution && (bodyOutcome a).2 then
        { s1 with reportCount := s1.reportCount + 1 }
      else runAgentsScan s1

/-- One event-loop step: some queued deferred body runs (any of them — this
covers every completion interleaving).  A crashed run makes no steps. -/
inductive Step : AgencyState → AgencyState → Prop
  | body (s : AgencyState) (k : Nat) (hk : k < s.queue.length)
      (hc : s.crashed = false) : Step s (runBody s k)

/-- The registry state at the start of a run. -/
def initState (ags : List AgentRec) : AgencyState :=
  { agents := ags, queue := [], reportCount := 0, execErrors := [], crashed := false }

/-- The state right after the user's initial `runAgents()` call. -/
def startState (ags : List AgentRec) : AgencyState :=
  runAgentsScan (initState ags)

/-- All states a run over registry `ags` can reach. -/
def Reachable (ags : List AgentRec) (s : AgencyState) : Prop :=
  Relation.ReflTransGen Step (startState ags) s

/-- A freshly created registry: every agent is pending, not waiting, with a
zero ghost dispatch counter. -/
def WfInit (ags : List AgentRec) : Prop :=
  ∀ a ∈ ags, a.executed = false ∧ a.waitingExec = false ∧ a.dispatchCount = 0

/-- No agent both halts on failure and fails: rules out the halt path. -/
def NoHalt (ags : List AgentRec) : Prop :=
  ∀ a ∈ ags, ¬(a.haltsExecution = true ∧ a.funcOutcome = .throws)

/-! ## Inter-agent value retrieval (`getAgentValue`, `getValueOfAgent`) -/

/-- `getAgentValue` from `index.js`: result of the first agent with the given
id; falls through (returns `undefined`) after logging when there is none. -/
def getAgentValue (agents : List AgentRec) (id : String) : JSValue :=
  match agents.find? (fun a => a.id = id) with
  | some a => a.result
  | none => .undefined

/-- `getValueOfAgent` from `lib/agent.js`: an agent may query only its own
declared dependencies; other ids yield `null`. -/
def getValueOfAgent (agents : List AgentRec) (caller : AgentRec) (dep : String) :
    JSValue :=
  if dep ∈ caller.deps then getAgentValue agents dep else .null

/-! ## Refinement: the `eval` model agrees with standard formula semantics -/

/-- Evaluate the formula component of a spec-parser result. -/
def orMapEval (o : Option (BExpr × List Char)) : Option (Bool × List Char) :=
  o.map (fun p => (p.1.evalB, p.2))

theorem parseLit_refine (cs : List Char) : parseLit cs = orMapEval (specLit cs) := by
  rw [parseLit.eq_def, specLit.eq_def]
  split <;> simp [orMapEval, BExpr.evalB]

/-- The value-producing `eval` model computes, at every level of the grammar,
exactly the standard truth value of the formula the spec grammar reads. -/
theorem js_spec_refine (f : Nat) :
    (∀ cs, jsUnary f cs = orMapEval (specUnary f cs)) ∧
    (∀ e cs, jsAndCont f e.evalB cs = orMapEval (specAndCont f e cs)) ∧
    (∀ cs, jsAnd f cs = orMapEval (specAnd f cs)) ∧
    (∀ e cs, jsOrCont f e.evalB cs = orMapEval (specOrCont f e cs)) ∧
    (∀ cs, jsOr f cs = orMapEval (specOr f cs)) := by
  induction f with
  | zero =>
    refine ⟨fun cs => ?_, fun e cs => ?_, fun cs => ?_, fun e cs => ?_, fun cs => ?_⟩ <;>
      simp [jsUnary, specUnary, jsAndCont, specAndCont, jsAnd, specAnd,
        jsOrCont, specOrCont, jsOr, specOr, orMapEval]
  | succ f ih =>
    obtain ⟨ihU, ihAC, ihA, ihOC, ihO⟩ := ih
    have hU : ∀ cs, jsUnary (f + 1) cs = orMapEval (specUnary (f + 1) cs) := by
      intro cs
      cases cs with
      | nil => simp [jsUnary, specUnary, parseLit, specLit, orMapEval]
      | cons c rest =>
        by_cases hx : c = '!'
        · subst hx
          simp only [jsUnary, specUnary, if_pos rfl]
          rw [ihU rest]
          cases specUnary f rest with
          | none => simp [orMapEval]
          | some p => cases p with | mk e r => simp [orMapEval, BExpr.evalB]
        · by_cases hp : c = '('
          · subst hp
            have hne : ('(' : Char) ≠ '!' := by decide
            simp only [jsUnary, specUnary, if_neg hne, if_pos rfl]
            rw [ihO rest]
            cases specOr f rest with
            | none => simp [orMapEval]
            | some p =>
              cases p with
              | mk e r =>
                cases r with
                | nil => simp [orMapEval]
                | cons c2 r2 =>
                  by_cases hc : c2 = ')' <;> simp [orMapEval, hc]
          · simp only [jsUnary, specUnary, if_neg hx, if_neg hp]
            exact parseLit_refine (c :: rest)
    have hAC : ∀ e cs, jsAndCont (f + 1) e.evalB cs =
        orMapEval (specAndCont (f + 1) e cs) := by
      intro e cs
      match cs with
      | [] => simp [jsAndCont, specAndCont, orMapEval]
      | [c] => simp [jsAndCont, specAndCont, orMapEval]
      | c1 :: c2 :: rest =>
        by_cases h2 : c1 = '&' ∧ c2 = '&'
        · obtain ⟨rfl, rfl⟩ := h2
          simp only [jsAndCont, specAndCont, if_pos rfl]
          rw [ihU rest]
          cases specUnary f rest with
          | none => simp [orMapEval]
          | some p =>
            cases p with
            | mk e2 r =>
              simp only [orMapEval, Option.map]
              have := ihAC (.andE e e2) r
              simpa [BExpr.evalB, orMapEval] using this
        · have hcond : (c1 = '&' && c2 = '&') = false := by
            rcases Decidable.em (c1 = '&') with h1 | h1 <;> simp_all
          simp [jsAndCont, specAndCont, hcond, orMapEval]
    have hA : ∀ cs, jsAnd (f + 1) cs = orMapEval (specAnd (f + 1) cs) := by
      intro cs
      simp only [jsAnd, specAnd]
      rw [ihU cs]
      cases specUnary f cs with
      | none => simp [orMapEval]
      | some p =>
        cases p with
        | mk e r =>
          simp only [orMapEval, Option.map]
          simpa [orMapEval] using ihAC e r
    have hOC : ∀ e cs, jsOrCont (f + 1) e.evalB cs =
        orMapEval (specOrCont (f + 1) e cs) := by
      intro e cs
      match cs with
      | [] => simp [jsOrCont, specOrCont, orMapEval]
      | [c] => simp [jsOrCont, specOrCont, orMapEval]
      | c1 :: c2 :: rest =>
        by_cases h2 : c1 = '|' ∧ c2 = '|'
        · obtain ⟨rfl, rfl⟩ := h2
          simp only [jsOrCont, specOrCont, if_pos rfl]
          rw [ihA rest]
          cases specAnd f rest with
          | none => simp [orMapEval]
          | some p =>
            cases p with
            | mk e2 r =>
              simp only [orMapEval, Option.map]
              have := ihOC (.orE e e2) r
              simpa [BExpr.evalB, orMapEval] using this
        · have hcond : (c1 = '|' && c2 = '|') = false := by
            rcases Decidable.em (c1 = '|') with h1 | h1 <;> simp_all
          simp [jsOrCont, specOrCont, hcond, orMapEval]
    have hO : ∀ cs, jsOr (f + 1) cs = orMapEval (specOr (f + 1) cs) := by
      intro cs
      simp only [jsOr, specOr]
      rw [ihA cs]
      cases specAnd f cs with
      | none => simp [orMapEval]
      | some p =>
        cases p with
        | mk e r =>
          simp only [orMapEval, Option.map]
          simpa [orMapEval] using ihOC e r
    exact ⟨hU, hAC, hA, hOC, hO⟩

/-- The `eval` model of a whole string is the standard truth value of the
formula the spec grammar assigns to that string. -/
theorem jsEval_spec (s : String) :
    jsEval s = (specParseFormula s).map BExpr.evalB := by
  unfold jsEval specParseFormula
  rw [(js_spec_refine (s.length + 1)).2.2.2.2 s.toList]
  cases specOr (s.length + 1) s.toList with
  | none => simp [orMapEval]
  | some p =>
    cases p with
    | mk e r =>
      cases r with
      | nil => simp [orMapEval]
      | cons c r2 => simp [orMapEval]

/-! ## The substitution performed by `evaluateLogicalExpression` -/

/-- The readiness boolean the evaluator substitutes for dependency `d`
(meaningful when the lookup succeeds). -/
def readyVal (agents : List AgentRec) (a : AgentRec) (d : String) : Bool :=
  match hasAgentExecuted agents d a with
  | .ok b => b
  | .error _ => false

/-- The working token list after the evaluator's substitution loop has
processed the dependencies `ds`. -/
def substList (agents : List AgentRec) (a : AgentRec) (ds : List String)
    (ret : List Tok) : List Tok :=
  ds.foldl (fun r d => replaceByLogicalValue r d (readyVal agents a d)) ret

/-- When every dependency lookup succeeds, the evaluator is exactly `eval`
of the joined, fully substituted token list. -/
theorem evalGo_ok (agents : List AgentRec) (a : AgentRec) :
    ∀ (ds : List String) (ret : List Tok),
      (∀ d ∈ ds, ∃ b, hasAgentExecuted agents d a = .ok b) →
      evalGo agents a ds ret = .ok (jsEval (joinToks (substList agents a ds ret))) := by
  intro ds
  induction ds with
  | nil => intro ret _; simp [evalGo, substList]
  | cons d ds ih =>
    intro ret h
    obtain ⟨b, hb⟩ := h d (by simp)
    have hd : readyVal agents a d = b := by simp [readyVal, hb]
    simp only [evalGo, hb, substList, List.foldl_cons]
    rw [← hd]
    exact ih _ (fun d' hd' => h d' (by simp [hd']))

/-- One lookup per distinct id, applied to all occurrences: the substitution
loop maps every token equal to a dependency id to that id's readiness
boolean and leaves all other tokens alone. -/
theorem substList_map (agents : List AgentRec) (a : AgentRec) :
    ∀ (ds : List String) (ret : List Tok),
      substList agents a ds ret = ret.map (fun t =>
        match t with
        | .str x => if x ∈ ds then .bool (readyVal agents a x) else .str x
        | .bool b => .bool b) := by
  intro ds
  induction ds with
  | nil =>
    intro ret
    simp only [substList, List.foldl_nil]
    have hid : ∀ t : Tok, (fun t =>
        match t with
        | .str x => if x ∈ ([] : List String) then Tok.bool (readyVal agents a x)
                    else .str x
        | .bool b => Tok.bool b) t = t := by
      intro t; cases t <;> simp
    rw [List.map_congr_left (fun t _ => hid t)]
    simp
  | cons d ds ih =>
    intro ret
    have step : substList agents a (d :: ds) ret =
        substList agents a ds (replaceByLogicalValue ret d (readyVal agents a d)) := by
      simp [substList, List.foldl_cons]
    rw [step, ih]
    unfold replaceByLogicalValue
    rw [List.map_map]
    apply List.map_congr_left
    intro t _
    cases t with
    | bool b => simp [Function.comp]
    | str x =>
      by_cases hx : x = d
      · subst hx
        simp [Function.comp, List.mem_cons]
      · have hne : Tok.str x ≠ Tok.str d := by simp [hx]
        simp only [Function.comp]
        rw [if_neg hne]
        by_cases hm : x ∈ ds
        · simp [hm, List.mem_cons, hx]
        · simp [hm, List.mem_cons, hx]

/-! ## Concrete agents used in closed runs -/

/-- A dependency agent with no expression whose `executed` flag is `ex`. -/
def depAgent (id : String) (ex : Bool) : AgentRec :=
  { id := id, expression := "", toks := [], deps := [], canExecute := true,
    executed := ex, waitingExec := false, deffDepCheck := false,
    haltsExecution := false, hasFunc := true, funcOutcome := .retVal .null,
    result := .undefined, dispatchCount := 0 }

/-- An agent holding the token sequence of `"a||(b&&!c)"`. -/
def c1Agent : AgentRec :=
  { id := "d", expression := "a||(b&&!c)",
    toks := ["a", "||(", "b", "&&!", "c", ")"], deps := ["a", "b", "c"],
    canExecute := true, executed := false, waitingExec := false,
    deffDepCheck := false, haltsExecution := false, hasFunc := true,
    funcOutcome := .retVal .null, result := .undefined, dispatchCount := 0 }

/-- Registry giving readiness a = false, b = true, c = false. -/
def c1Registry : List AgentRec :=
  [depAgent "a" false, depAgent "b" true, depAgent "c" false]

/-- An agent holding the token sequence of the parseable `"a||(b&&c)"`. -/
def c1wAgent : AgentRec :=
  { id := "d", expression := "a||(b&&c)",
    toks := ["a", "||(", "b", "&&", "c", ")"], deps := ["a", "b", "c"],
    canExecute := true, executed := false, waitingExec := false,
    deffDepCheck := false, haltsExecution := false, hasFunc := true,
    funcOutcome := .retVal .null, result := .undefined, dispatchCount := 0 }

/-- Registry giving readiness a = false, b = true, c = true. -/
def c1wRegistry : List AgentRec :=
  [depAgent "a" false, depAgent "b" true, depAgent "c" true]

/-- C1: for every successfully parsed token sequence and every readiness
lookup defined on all referenced dependency ids, the evaluator returns the
truth value of the boolean formula under standard semantics — each dependency
id replaced by its readiness boolean (looked up once per distinct id, applied
to all occurrences), with `!` as highest-precedence unary prefix, then `&&`,
then `||`, and parentheses overriding; in particular the tokens of
`"a||(b&&!c)"` with a = false, b = true, c = false evaluate to true. -/
theorem C1_evaluator_standard_semantics :
    (∀ (ownId expr : String) (pe : ParsedExpr) (agents : List AgentRec)
       (a : AgentRec) (φ : BExpr),
       parseExpression ownId expr = .ok pe →
       a.toks = pe.toks → a.deps = pe.deps →
       (∀ d ∈ a.deps, ∃ b, hasAgentExecuted agents d a = .ok b) →
       specParseFormula
         (joinToks (substList agents a a.deps (a.toks.map Tok.str))) = some φ →
       evaluateLogicalExpression agents a = .ok (some φ.evalB)) ∧
    (∀ (agents : List AgentRec) (a : AgentRec),
       substList agents a a.deps (a.toks.map Tok.str) = a.toks.map (fun t =>
         if t ∈ a.deps then Tok.bool (readyVal agents a t) else .str t)) ∧
    evaluateLogicalExpression c1Registry c1Agent = .ok (some true) := by
  refine ⟨?_, ?_, ?_⟩
  · intro ownId expr pe agents a φ _ _ _ hlook hφ
    unfold evaluateLogicalExpression
    rw [evalGo_ok agents a a.deps (a.toks.map Tok.str) hlook, jsEval_spec, hφ]
    rfl
  · intro agents a
    rw [substList_map, List.map_map]
    rfl
  · rfl

/-- Witness for C1: the expression `"a||(b&&c)"` parses to the expected
tokens, and with a = false, b = true, c = true the evaluator returns true. -/
theorem C1_witness :
    parseExpression "d" "a||(b&&c)" =
      .ok ⟨"a||(b&&c)", ["a", "||(", "b", "&&", "c", ")"], ["a", "b", "c"]⟩ ∧
    evaluateLogicalExpression c1wRegistry c1wAgent = .ok (some true) :=
  ⟨rfl,
    C1_evaluator_standard_semantics.1 "d" "a||(b&&c)"
      ⟨"a||(b&&c)", ["a", "||(", "b", "&&", "c", ")"], ["a", "b", "c"]⟩
      c1wRegistry c1wAgent
      (.orE (.lit false) (.andE (.lit true) (.lit true)))
      rfl rfl rfl
      (by
        intro d hd
        fin_cases hd
        · exact ⟨false, rfl⟩
        · exact ⟨true, rfl⟩
        · exact ⟨true, rfl⟩)
      rfl⟩

/-- `hasAgentExecuted` on the first registry entry carrying the looked-up id:
without `deffDepCheck` it returns `executed`, with it `executed or
waitingExec`. -/
theorem hasAgentExecuted_find (agents : List AgentRec) (dep : String)
    (curr : AgentRec) :
    ∀ a, agents.find? (fun x => x.id = dep) = some a →
      hasAgentExecuted agents dep curr =
        .ok (if curr.deffDepCheck then a.executed || a.waitingExec
             else a.executed) := by
  induction agents with
  | nil => intro a h; simp at h
  | cons ag rest ih =>
    intro a h
    by_cases hid : ag.id = dep
    · rw [List.find?_cons_of_pos _ (by simp [hid])] at h
      injection h with h
      subst h
      unfold hasAgentExecuted
      rw [if_pos hid]
      cases hd : curr.deffDepCheck with
      | false => simp
      | true => cases ag.executed <;> simp
    · rw [List.find?_cons_of_neg _ (by simp [hid])] at h
      unfold hasAgentExecuted
      rw [if_neg hid]
      exact ih a h

/-- C5: readiness of a dependency for a dependent task: with
`deffDepCheck = false` the dependency counts as ready iff it has executed
(state Completed); with `deffDepCheck = true`, iff it has executed or is
awaiting execution (Completed or Dispatched). -/
theorem C5_readiness_lookup (agents : List AgentRec) (dep : String)
    (curr : AgentRec) (a : AgentRec)
    (hfind : agents.find? (fun x => x.id = dep) = some a) :
    hasAgentExecuted agents dep curr =
      .ok (if curr.deffDepCheck then a.executed || a.waitingExec
           else a.executed) :=
  hasAgentExecuted_find agents dep curr a hfind

/-- Witness for C5: lookup of an executed dependency. -/
theorem C5_witness :
    hasAgentExecuted [depAgent "a" true] "a" c1Agent = .ok true :=
  C5_readiness_lookup [depAgent "a" true] "a" c1Agent (depAgent "a" true) rfl

/-- Counterexample for C7: parsing `")a"` does not fail with
`UnopenedParenthesis` — the rule table rejects `')'` as a first character
(`InvalidCharacter` at position 1) before the parenthesis counter is ever
consulted. -/
theorem C7_counterexample :
    parseExpression "t" ")a" = .error (.invalidCharacter 1) ∧
    parseExpression "t" ")a" ≠ .error .unopenedParentheses := by
  constructor
  · rfl
  · intro h
    rw [show parseExpression "t" ")a" = .error (.invalidCharacter 1) from rfl] at h
    simp at h

/-- C7 (amended): `")a"` fails with `InvalidCharacter` at position 1 (the
rule table rejects the leading `')'` before the parenthesis counter is
consulted); the counter produces `UnopenedParenthesis` where `')'` is
positionally legal but unmatched, e.g. `"a)"`. -/
theorem C7_amended :
    parseExpression "t" ")a" = .error (.invalidCharacter 1) ∧
    parseExpression "t" "a)" = .error .unopenedParentheses :=
  ⟨rfl, rfl⟩

/-- C8: the terminator check of `parseExpression` rejects `"a_"` with
`InvalidTerminator` even though `'_'` is an identifier character: the final
regex `[a-zA-Z0-9)]` omits the underscore, contradicting the code's own rule
legend (`#` = alphanumerics and underscore, listed as a terminator class).
For contrast, letter, digit and `')'` terminators are accepted and a dangling
operator is rejected. -/
theorem C8_terminator :
    parseExpression "t" "a_" = .error .invalidTerminator ∧
    parseExpression "t" "a1" =
      .ok ⟨"a1", ["a1"], ["a1"]⟩ ∧
    parseExpression "t" "(a)" =
      .ok ⟨"(a)", ["(", "a", ")"], ["a"]⟩ ∧
    parseExpression "t" "a&&" = .error .invalidTerminator :=
  ⟨rfl, rfl, rfl, rfl⟩

/-! ## Scheduler shape lemmas

A scan step can change only an agent's `waitingExec` and `dispatchCount`
fields; a completion body can additionally change `executed` and `result`.
Everything an agent was created with (id, expression, tokens, dependencies,
flags, its function) is immutable during a run. -/

theorem length_executeAgent (s : AgencyState) (i : Nat) :
    (executeAgent s i).agents.length = s.agents.length := by
  cases h : s.agents[i]? with
  | none => simp [executeAgent, h]
  | some a =>
    by_cases hf : a.hasFunc = true
    . simp [executeAgent, h, hf]
    . simp [executeAgent, h, hf]

theorem length_scanAgent (s : AgencyState) (i : Nat) :
    (scanAgent s i).agents.length = s.agents.length := by
  cases h : s.agents[i]? with
  | none => simp [scanAgent, h]
  | some a =>
    simp only [scanAgent, h]
    by_cases he : (!a.executed && !a.waitingExec && a.canExecute) = true
    . rw [if_pos he]
      by_cases hx : a.expression = ""
      . rw [if_pos hx]; exact length_executeAgent s i
      . rw [if_neg hx]
        cases evaluateLogicalExpression s.agents a with
        | error e => rfl
        | ok ob =>
          cases ob with
          | none => rfl
          | some b =>
            cases b with
            | true => simp only [if_pos rfl]; exact length_executeAgent s i
            | false => rfl
    . rw [if_neg he]

theorem length_scanFrom (l : List Nat) :
    ∀ s : AgencyState, (scanFrom s l).agents.length = s.agents.length := by
  induction l with
  | nil =>
    intro s
    unfold scanFrom
    by_cases h : hasAgencyCompleted s.agents = true
    . rw [if_pos h]
    . rw [if_neg h]
  | cons i is ih =>
    intro s
    unfold scanFrom
    by_cases h : (scanAgent s i).crashed = true
    . rw [if_pos h]; exact length_scanAgent s i
    . rw [if_neg h]; rw [ih (scanAgent s i)]; exact length_scanAgent s i

theorem length_runAgentsScan (s : AgencyState) :
    (runAgentsScan s).agents.length = s.agents.length := by
  unfold runAgentsScan
  by_cases h : s.crashed = true
  . rw [if_pos h]
  . rw [if_neg h]; exact length_scanFrom _ s

theorem executeAgent_shape (s : AgencyState) (i : Nat) :
    ∀ (j : Nat) (a0 : AgentRec), s.agents[j]? = some a0 →
      ∃ (w : Bool) (dc : Nat), (executeAgent s i).agents[j]? =
        some { a0 with waitingExec := w, dispatchCount := dc } := by
  intro j a0 hj
  cases h : s.agents[i]? with
  | none =>
    refine ⟨a0.waitingExec, a0.dispatchCount, ?_⟩
    simp only [executeAgent, h]
    exact hj
  | some a =>
    by_cases hf : a.hasFunc = true
    . simp only [executeAgent, h]
      rw [if_pos hf]
      by_cases hij : i = j
      . subst hij
        rw [hj] at h
        injection h with h
        subst h
        have hlt : i < s.agents.length := by
          rcases List.getElem?_eq_some.mp hj with ⟨hlt, _⟩
          exact hlt
        refine ⟨true, a0.dispatchCount + 1, ?_⟩
        rw [List.getElem?_set_eq_of_lt _ hlt]
      . refine ⟨a0.waitingExec, a0.dispatchCount, ?_⟩
        rw [List.getElem?_set_ne hij, hj]
    . simp only [executeAgent, h]
      rw [if_neg hf]
      exact ⟨a0.waitingExec, a0.dispatchCount, hj⟩

/-- Shape of a scan step on the registry: every agent record survives with at
most its `waitingExec` and `dispatchCount` fields changed. -/
theorem scanAgent_shape (s : AgencyState) (i : Nat) :
    ∀ (j : Nat) (a0 : AgentRec), s.agents[j]? = some a0 →
      ∃ (w : Bool) (dc : Nat), (scanAgent s i).agents[j]? =
        some { a0 with waitingExec := w, dispatchCount := dc } := by
  intro j a0 hj
  cases h : s.agents[i]? with
  | none =>
    refine ⟨a0.waitingExec, a0.dispatchCount, ?_⟩
    simp only [scanAgent, h]
    exact hj
  | some a =>
    simp only [scanAgent, h]
    by_cases he : (!a.executed && !a.waitingExec && a.canExecute) = true
    . rw [if_pos he]
      by_cases hx : a.expression = ""
      . rw [if_pos hx]; exact executeAgent_shape s i j a0 hj
      . rw [if_neg hx]
        cases evaluateLogicalExpression s.agents a with
        | error e => exact ⟨a0.waitingExec, a0.dispatchCount, hj⟩
        | ok ob =>
          cases ob with
          | none => exact ⟨a0.waitingExec, a0.dispatchCount, hj⟩
          | some b =>
            cases b with
            | true => simp only [if_pos rfl]; exact executeAgent_shape s i j a0 hj
            | false => exact ⟨a0.waitingExec, a0.dispatchCount, hj⟩
    . rw [if_neg he]
      exact ⟨a0.waitingExec, a0.dispatchCount, hj⟩

/-- Shape of a whole scan: composition of `scanAgent_shape`. -/
theorem scanFrom_shape (l : List Nat) :
    ∀ (s : AgencyState) (j : Nat) (a0 : AgentRec), s.agents[j]? = some a0 →
      ∃ (w : Bool) (dc : Nat), (scanFrom s l).agents[j]? =
        some { a0 with waitingExec := w, dispatchCount := dc } := by
  induction l with
  | nil =>
    intro s j a0 hj
    unfold scanFrom
    by_cases h : hasAgencyCompleted s.agents = true
    . rw [if_pos h]; exact ⟨a0.waitingExec, a0.dispatchCount, hj⟩
    . rw [if_neg h]; exact ⟨a0.waitingExec, a0.dispatchCount, hj⟩
  | cons i is ih =>
    intro s j a0 hj
    obtain ⟨w, dc, h1⟩ := scanAgent_shape s i j a0 hj
    unfold scanFrom
    by_cases h : (scanAgent s i).crashed = true
    . rw [if_pos h]; exact ⟨w, dc, h1⟩
    . rw [if_neg h]
      obtain ⟨w2, dc2, h2⟩ := ih (scanAgent s i) j _ h1
      exact ⟨w2, dc2, h2⟩

theorem runAgentsScan_shape (s : AgencyState) :
    ∀ (j : Nat) (a0 : AgentRec), s.agents[j]? = some a0 →
      ∃ (w : Bool) (dc : Nat), (runAgentsScan s).agents[j]? =
        some { a0 with waitingExec := w, dispatchCount := dc } := by
  intro j a0 hj
  unfold runAgentsScan
  by_cases h : s.crashed = true
  . rw [if_pos h]; exact ⟨a0.waitingExec, a0.dispatchCount, hj⟩
  . rw [if_neg h]; exact scanFrom_shape _ s j a0 hj

theorem runBody_eq (s : AgencyState) (k i : Nat) (a : AgentRec)
    (hq : s.queue[k]? = some i) (hi : s.agents[i]? = some a) :
    runBody s k =
      (if a.haltsExecution && (bodyOutcome a).2 then
        { agents := s.agents.set i { a with result := (bodyOutcome a).1, executed := true, waitingExec := false },
          queue := s.queue.eraseIdx k, reportCount := s.reportCount + 1,
          execErrors := s.execErrors, crashed := s.crashed }
      else runAgentsScan
        { agents := s.agents.set i { a with result := (bodyOutcome a).1, executed := true, waitingExec := false },
          queue := s.queue.eraseIdx k, reportCount := s.reportCount,
          execErrors := s.execErrors, crashed := s.crashed }) := by
  simp only [runBody, hq, hi]

/-- Shape of a completion body: every agent record survives with at most
`waitingExec`, `dispatchCount`, `executed` and `result` changed. -/
theorem runBody_shape (s : AgencyState) (k : Nat) :
    ∀ (j : Nat) (a0 : AgentRec), s.agents[j]? = some a0 →
      ∃ (w : Bool) (dc : Nat) (ex : Bool) (res : JSValue),
        (runBody s k).agents[j]? =
          some { a0 with waitingExec := w, dispatchCount := dc,
                         executed := ex, result := res } := by
  intro j a0 hj
  cases hq : s.queue[k]? with
  | none =>
    refine ⟨a0.waitingExec, a0.dispatchCount, a0.executed, a0.result, ?_⟩
    simp only [runBody, hq]
    exact hj
  | some i =>
    cases hi : s.agents[i]? with
    | none =>
      refine ⟨a0.waitingExec, a0.dispatchCount, a0.executed, a0.result, ?_⟩
      simp only [runBody, hq, hi]
      exact hj
    | some a =>
      rw [runBody_eq s k i a hq hi]
      have hmid : ∃ (w : Bool) (dc : Nat) (ex : Bool) (res : JSValue),
          (s.agents.set i { a with result := (bodyOutcome a).1, executed := true, waitingExec := false })[j]? =
          some { a0 with waitingExec := w, dispatchCount := dc, executed := ex, result := res } := by
        by_cases hij : i = j
        . subst hij
          rw [hj] at hi
          injection hi with hi
          subst hi
          have hlt : i < s.agents.length := by
            rcases List.getElem?_eq_some.mp hj with ⟨hlt, _⟩
            exact hlt
          refine ⟨false, a0.dispatchCount, true, (bodyOutcome a0).1, ?_⟩
          rw [List.getElem?_set_eq_of_lt _ hlt]
        . refine ⟨a0.waitingExec, a0.dispatchCount, a0.executed, a0.result, ?_⟩
          rw [List.getElem?_set_ne hij, hj]
      obtain ⟨w, dc, ex, res, hmid⟩ := hmid
      by_cases hh : (a.haltsExecution && (bodyOutcome a).2) = true
      . rw [if_pos hh]
        exact ⟨w, dc, ex, res, hmid⟩
      . rw [if_neg hh]
        obtain ⟨w2, dc2, h2⟩ := runAgentsScan_shape
          { agents := s.agents.set i { a with result := (bodyOutcome a).1, executed := true, waitingExec := false },
            queue := s.queue.eraseIdx k, reportCount := s.reportCount,
            execErrors := s.execErrors, crashed := s.crashed } j _ hmid
        exact ⟨w2, dc2, ex, res, h2⟩

/-! ## The run invariant -/

/-- Removing the `k`-th queue entry (holding agent `i`) lowers the count of
`i` by one and leaves other counts alone. -/
theorem count_eraseIdx_at (l : List Nat) (k i : Nat) (h : l[k]? = some i)
    (x : Nat) :
    (l.eraseIdx k).count x + (if x = i then 1 else 0) = l.count x := by
  rcases List.getElem?_eq_some.mp h with ⟨hk, hget⟩
  rw [List.eraseIdx_eq_take_drop_succ, List.count_append]
  conv_rhs => rw [← List.take_append_drop k l, List.count_append]
  rw [← List.get_drop_eq_drop l k hk, hget, List.count_cons]
  by_cases hx : x = i <;> simp [hx] <;> omega

/-- Per-agent piece of the run invariant: `waitingExec` excludes `executed`,
an agent is in the queue exactly when it awaits execution, the ghost dispatch
counter is 1 exactly once the agent has been handed to `setTimeout`, and an
agent without a function never advances. -/
def agentInv (s : AgencyState) (i : Nat) (a : AgentRec) : Prop :=
  (a.waitingExec = true → a.executed = false) ∧
  s.queue.count i = (if a.waitingExec then 1 else 0) ∧
  a.dispatchCount = (if a.waitingExec || a.executed then 1 else 0) ∧
  (a.hasFunc = false → a.waitingExec = false ∧ a.executed = false)

/-- The run invariant: queued indices are valid, and every agent satisfies
its per-agent invariant. -/
def Inv (s : AgencyState) : Prop :=
  (∀ i ∈ s.queue, i < s.agents.length) ∧
  ∀ (i : Nat) (a : AgentRec), s.agents[i]? = some a → agentInv s i a

theorem executeAgent_inv (s : AgencyState) (i : Nat) (a : AgentRec)
    (hInv : Inv s) (ha : s.agents[i]? = some a)
    (hw : a.waitingExec = false) (hx : a.executed = false) :
    Inv (executeAgent s i) := by
  obtain ⟨hbound, hag⟩ := hInv
  by_cases hf : a.hasFunc = true
  . have hlt : i < s.agents.length := (List.getElem?_eq_some.mp ha).1
    simp only [executeAgent, ha]
    rw [if_pos hf]
    constructor
    . intro j hj
      rw [List.length_set]
      rcases List.mem_append.mp hj with hj | hj
      . exact hbound j hj
      . rw [List.mem_singleton] at hj
        subst hj
        exact hlt
    . intro j b hb
      by_cases hij : i = j
      . subst hij
        rw [List.getElem?_set_eq_of_lt _ hlt] at hb
        injection hb with hb
        subst hb
        obtain ⟨h1, h2, h3, h4⟩ := hag i a ha
        refine ⟨fun _ => hx, ?_, ?_,
          fun hff => absurd (hf.symm.trans (show a.hasFunc = false from hff))
            (by decide)⟩
        . show (s.queue ++ [i]).count i = if true = true then 1 else 0
          rw [List.count_append, h2, hw]
          simp
        . show a.dispatchCount + 1 = if (true || a.executed) = true then 1 else 0
          rw [h3, hw, hx]
          simp
      . rw [List.getElem?_set_ne hij] at hb
        obtain ⟨h1, h2, h3, h4⟩ := hag j b hb
        refine ⟨h1, ?_, h3, h4⟩
        show (s.queue ++ [i]).count j = if b.waitingExec = true then 1 else 0
        have hz : List.count j [i] = 0 := by
          simp [hij, Ne.symm hij]
        rw [List.count_append, h2, hz]
        omega
  . simp only [executeAgent, ha]
    rw [if_neg hf]
    exact ⟨hbound, hag⟩

theorem scanAgent_inv (s : AgencyState) (i : Nat) (hInv : Inv s) :
    Inv (scanAgent s i) := by
  cases h : s.agents[i]? with
  | none =>
    simp only [scanAgent, h]
    exact hInv
  | some a =>
    simp only [scanAgent, h]
    by_cases he : (!a.executed && !a.waitingExec && a.canExecute) = true
    . rw [if_pos he]
      have hxw : a.executed = false ∧ a.waitingExec = false := by
        simp only [Bool.and_eq_true, Bool.not_eq_true'] at he
        exact ⟨he.1.1, he.1.2⟩
      by_cases hxp : a.expression = ""
      . rw [if_pos hxp]
        exact executeAgent_inv s i a hInv h hxw.2 hxw.1
      . rw [if_neg hxp]
        cases evaluateLogicalExpression s.agents a with
        | error e => exact hInv
        | ok ob =>
          cases ob with
          | none => exact hInv
          | some b =>
            cases b with
            | true =>
              simp only [if_pos rfl]
              exact executeAgent_inv s i a hInv h hxw.2 hxw.1
            | false => exact hInv
    . rw [if_neg he]
      exact hInv

theorem scanFrom_inv (l : List Nat) :
    ∀ s : AgencyState, Inv s → Inv (scanFrom s l) := by
  induction l with
  | nil =>
    intro s hInv
    unfold scanFrom
    by_cases h : hasAgencyCompleted s.agents = true
    . rw [if_pos h]; exact hInv
    . rw [if_neg h]; exact hInv
  | cons i is ih =>
    intro s hInv
    unfold scanFrom
    by_cases h : (scanAgent s i).crashed = true
    . rw [if_pos h]; exact scanAgent_inv s i hInv
    . rw [if_neg h]; exact ih _ (scanAgent_inv s i hInv)

theorem runAgentsScan_inv (s : AgencyState) (hInv : Inv s) :
    Inv (runAgentsScan s) := by
  unfold runAgentsScan
  by_cases h : s.crashed = true
  . rw [if_pos h]; exact hInv
  . rw [if_neg h]; exact scanFrom_inv _ s hInv

/-- The intermediate state of a completion body (agent marked executed, its
queue entry removed) satisfies the run invariant, for any values of the
fields the invariant ignores. -/
theorem eraseSet_inv (s : AgencyState) (k i : Nat) (a : AgentRec)
    (hInv : Inv s) (hq : s.queue[k]? = some i) (ha : s.agents[i]? = some a)
    (r : Nat) (ee : List Nat) (cr : Bool) :
    Inv { agents := s.agents.set i { a with result := (bodyOutcome a).1, executed := true, waitingExec := false },
          queue := s.queue.eraseIdx k, reportCount := r,
          execErrors := ee, crashed := cr } := by
  have hiq : i ∈ s.queue := List.getElem?_mem hq
  have hlt : i < s.agents.length := hInv.1 i hiq
  obtain ⟨hbound, hag⟩ := hInv
  obtain ⟨h1, h2, h3, h4⟩ := hag i a ha
  have hw : a.waitingExec = true := by
    by_contra hw'
    have hw0 : a.waitingExec = false := by
      revert hw'; cases a.waitingExec <;> simp
    rw [hw0] at h2
    simp at h2
    have hpos := List.count_pos_iff.mpr hiq
    omega
  constructor
  . intro j hj
    rw [List.length_set]
    exact hbound j (List.mem_of_mem_eraseIdx hj)
  . intro j b hb
    by_cases hij : i = j
    . subst hij
      rw [List.getElem?_set_eq_of_lt _ hlt] at hb
      injection hb with hb
      subst hb
      refine ⟨fun hh => Bool.noConfusion (show (false : Bool) = true from hh),
        ?_, ?_, ?_⟩
      . have hcount := count_eraseIdx_at s.queue k i hq i
        rw [h2, hw] at hcount
        simp only [if_pos rfl] at hcount
        show List.count i (s.queue.eraseIdx k) = if false = true then 1 else 0
        simp only [Bool.false_eq_true, if_false]
        omega
      . show a.dispatchCount = if (false || true) = true then 1 else 0
        rw [h3, hw]
        simp
      . intro hff
        exact absurd (h4 (show a.hasFunc = false from hff)).1 (by simp [hw])
    . rw [List.getElem?_set_ne hij] at hb
      obtain ⟨h1b, h2b, h3b, h4b⟩ := hag j b hb
      refine ⟨h1b, ?_, h3b, h4b⟩
      show List.count j (s.queue.eraseIdx k) = if b.waitingExec = true then 1 else 0
      have hcount := count_eraseIdx_at s.queue k i hq j
      rw [if_neg (Ne.symm hij)] at hcount
      rw [← h2b]
      omega

theorem runBody_inv (s : AgencyState) (k : Nat) (hInv : Inv s) :
    Inv (runBody s k) := by
  cases hq : s.queue[k]? with
  | none =>
    simp only [runBody, hq]
    exact hInv
  | some i =>
    have hiq : i ∈ s.queue := List.getElem?_mem hq
    have hlt : i < s.agents.length := hInv.1 i hiq
    obtain ⟨a, ha⟩ : ∃ a, s.agents[i]? = some a :=
      ⟨s.agents[i], List.getElem?_eq_getElem hlt⟩
    obtain ⟨hbound, hag⟩ := hInv
    obtain ⟨h1, h2, h3, h4⟩ := hag i a ha
    have hw : a.waitingExec = true := by
      by_contra hw'
      have hw0 : a.waitingExec = false := by
        revert hw'; cases a.waitingExec <;> simp
      rw [hw0] at h2
      simp at h2
      have hpos := List.count_pos_iff.mpr hiq
      omega
    have hx : a.executed = false := h1 hw
    rw [runBody_eq s k i a hq ha]
    have hInv1 := eraseSet_inv s k i a ⟨hbound, hag⟩ hq ha
      s.reportCount s.execErrors s.crashed
    by_cases hh : (a.haltsExecution && (bodyOutcome a).2) = true
    . rw [if_pos hh]
      exact hInv1
    . rw [if_neg hh]
      exact runAgentsScan_inv _ hInv1

theorem initState_inv (ags : List AgentRec) (hwf : WfInit ags) :
    Inv (initState ags) := by
  constructor
  . intro i hi
    cases hi
  . intro i a ha
    obtain ⟨hx, hw, hdc⟩ := hwf a (List.getElem?_mem ha)
    refine ⟨fun hh => hx, ?_, ?_, fun _ => ⟨hw, hx⟩⟩
    . rw [hw]
      simp [initState]
    . rw [hdc, hw, hx]
      simp

theorem step_inv {s t : AgencyState} (hst : Step s t) (hInv : Inv s) : Inv t := by
  cases hst with
  | body k hk hc => exact runBody_inv _ k hInv

theorem reachable_inv (ags : List AgentRec) (hwf : WfInit ags)
    {s : AgencyState} (hreach : Reachable ags s) : Inv s := by
  have hstart : Inv (startState ags) :=
    runAgentsScan_inv _ (initState_inv ags hwf)
  induction hreach with
  | refl => exact hstart
  | tail hr hstep ih => exact step_inv hstep ih

/-! ## Terminal-report bookkeeping -/

theorem executeAgent_rc (s : AgencyState) (i : Nat) :
    (executeAgent s i).reportCount = s.reportCount ∧
    (executeAgent s i).crashed = s.crashed ∧
    (executeAgent s i).execErrors = s.execErrors := by
  cases h : s.agents[i]? with
  | none => simp [executeAgent, h]
  | some a =>
    simp only [executeAgent, h]
    by_cases hf : a.hasFunc = true
    . rw [if_pos hf]; exact ⟨rfl, rfl, rfl⟩
    . rw [if_neg hf]; exact ⟨rfl, rfl, rfl⟩

/-- A single scan iteration never touches the report counter and never
clears the crash flag. -/
theorem scanAgent_rc (s : AgencyState) (i : Nat) :
    (scanAgent s i).reportCount = s.reportCount ∧
    (s.crashed = true → (scanAgent s i).crashed = true) := by
  cases h : s.agents[i]? with
  | none => simp [scanAgent, h]
  | some a =>
    simp only [scanAgent, h]
    by_cases he : (!a.executed && !a.waitingExec && a.canExecute) = true
    . rw [if_pos he]
      by_cases hx : a.expression = ""
      . rw [if_pos hx]
        exact ⟨(executeAgent_rc s i).1, fun hc => by
          rw [← (executeAgent_rc s i).2.1] at hc
          exact hc⟩
      . rw [if_neg hx]
        cases evaluateLogicalExpression s.agents a with
        | error e => exact ⟨rfl, fun hc => hc⟩
        | ok ob =>
          cases ob with
          | none => exact ⟨rfl, fun _ => rfl⟩
          | some b =>
            cases b with
            | true =>
              simp only [if_pos rfl]
              exact ⟨(executeAgent_rc s i).1, fun hc => by
                rw [← (executeAgent_rc s i).2.1] at hc
                exact hc⟩
            | false => exact ⟨rfl, fun hc => hc⟩
    . rw [if_neg he]
      exact ⟨rfl, fun hc => hc⟩

/-- Under the invariant, the completion check (`hasAgencyCompleted`: nobody
has `waitingExec`) holds exactly when the deferred-body queue is empty. -/
theorem completed_iff_queue_nil (s : AgencyState) (hInv : Inv s) :
    hasAgencyCompleted s.agents = true ↔ s.queue = [] := by
  obtain ⟨hbound, hag⟩ := hInv
  constructor
  . intro hc
    by_contra hne
    obtain ⟨j, hj⟩ : ∃ j, j ∈ s.queue := List.exists_mem_of_ne_nil s.queue hne
    have hjl := hbound j hj
    obtain ⟨b, hb⟩ : ∃ b, s.agents[j]? = some b :=
      ⟨s.agents[j], List.getElem?_eq_getElem hjl⟩
    obtain ⟨_, h2, _, _⟩ := hag j b hb
    have hpos := List.count_pos_iff.mpr hj
    have hbw : b.waitingExec = true := by
      by_contra hw'
      have hw0 : b.waitingExec = false := by
        revert hw'; cases b.waitingExec <;> simp
      rw [hw0] at h2
      simp at h2
      omega
    have hall := List.all_eq_true.mp hc b (List.getElem?_mem hb)
    rw [hbw] at hall
    simp at hall
  . intro hq
    unfold hasAgencyCompleted
    rw [List.all_eq_true]
    intro b hbmem
    obtain ⟨j, hj⟩ := List.mem_iff_getElem?.mp hbmem
    obtain ⟨_, h2, _, _⟩ := hag j b hj
    rw [hq] at h2
    cases hbw : b.waitingExec with
    | false => simp
    | true =>
      rw [hbw] at h2
      simp at h2

/-- After a crash-free scan started with a zero report counter, the counter
reads 1 exactly when nothing is left in flight. -/
theorem scanFrom_report (l : List Nat) :
    ∀ s : AgencyState, Inv s → s.reportCount = 0 →
      (scanFrom s l).crashed = false →
      (scanFrom s l).reportCount =
        (if (scanFrom s l).queue = [] then 1 else 0) := by
  induction l with
  | nil =>
    intro s hInv hr hcf
    unfold scanFrom at hcf ⊢
    by_cases h : hasAgencyCompleted s.agents = true
    . rw [if_pos h]
      have hq := (completed_iff_queue_nil s hInv).mp h
      show s.reportCount + 1 = if s.queue = [] then 1 else 0
      rw [hq, hr]
      simp
    . rw [if_neg h]
      have hq : ¬s.queue = [] := fun hq => h ((completed_iff_queue_nil s hInv).mpr hq)
      rw [if_neg hq]
      exact hr
  | cons i is ih =>
    intro s hInv hr hcf
    unfold scanFrom at hcf ⊢
    by_cases h : (scanAgent s i).crashed = true
    . rw [if_pos h] at hcf ⊢
      exact absurd hcf (by rw [h]; simp)
    . rw [if_neg h] at hcf ⊢
      exact ih (scanAgent s i) (scanAgent_inv s i hInv)
        (by rw [(scanAgent_rc s i).1]; exact hr) hcf

/-! ## Runs without halting failures -/

/-- No agent of the state both halts on failure and fails. -/
def NoHaltState (s : AgencyState) : Prop :=
  ∀ a ∈ s.agents, ¬(a.haltsExecution = true ∧ a.funcOutcome = .throws)

/-- Agent ids, halt flags and outcomes survive any state transformation that
only rewrites the mutable fields. -/
theorem noHaltState_of_shape {s t : AgencyState}
    (hshape : ∀ (j : Nat) (a0 : AgentRec), s.agents[j]? = some a0 →
      ∃ (w : Bool) (dc : Nat) (ex : Bool) (res : JSValue),
        t.agents[j]? = some { a0 with waitingExec := w, dispatchCount := dc, executed := ex, result := res })
    (hlen : t.agents.length = s.agents.length)
    (hn : NoHaltState s) : NoHaltState t := by
  intro b hb
  obtain ⟨j, hj⟩ := List.mem_iff_getElem?.mp hb
  have hjl : j < s.agents.length := by
    rw [← hlen]
    exact (List.getElem?_eq_some.mp hj).1
  obtain ⟨a0, ha0⟩ : ∃ a0, s.agents[j]? = some a0 :=
    ⟨s.agents[j], List.getElem?_eq_getElem hjl⟩
  obtain ⟨w, dc, ex, res, ht⟩ := hshape j a0 ha0
  rw [hj] at ht
  injection ht with ht
  rw [ht]
  intro hcontra
  exact hn a0 (List.getElem?_mem ha0) ⟨hcontra.1, hcontra.2⟩

/-- Widen the two-field scan shape to the four-field body shape. -/
theorem shape_widen {s t : AgencyState}
    (hshape : ∀ (j : Nat) (a0 : AgentRec), s.agents[j]? = some a0 →
      ∃ (w : Bool) (dc : Nat), t.agents[j]? = some { a0 with waitingExec := w, dispatchCount := dc }) :
    ∀ (j : Nat) (a0 : AgentRec), s.agents[j]? = some a0 →
      ∃ (w : Bool) (dc : Nat) (ex : Bool) (res : JSValue),
        t.agents[j]? = some { a0 with waitingExec := w, dispatchCount := dc, executed := ex, result := res } := by
  intro j a0 h
  obtain ⟨w, dc, ht⟩ := hshape j a0 h
  exact ⟨w, dc, a0.executed, a0.result, ht⟩

theorem step_noHalt {s t : AgencyState} (hst : Step s t)
    (hn : NoHaltState s) : NoHaltState t := by
  cases hst with
  | body k hk hc =>
    exact noHaltState_of_shape (runBody_shape s k) (by
      cases hq : s.queue[k]? with
      | none => simp only [runBody, hq]
      | some i =>
        cases hi : s.agents[i]? with
        | none => simp only [runBody, hq, hi]
        | some a =>
          rw [runBody_eq s k i a hq hi]
          by_cases hh : (a.haltsExecution && (bodyOutcome a).2) = true
          . rw [if_pos hh]
            exact List.length_set s.agents i _
          . rw [if_neg hh]
            rw [length_runAgentsScan]
            exact List.length_set s.agents i _) hn

theorem reachable_noHalt (ags : List AgentRec) (hnh : NoHalt ags)
    {s : AgencyState} (hreach : Reachable ags s) : NoHaltState s := by
  have hinit : NoHaltState (initState ags) := hnh
  have hstart : NoHaltState (startState ags) :=
    noHaltState_of_shape (shape_widen (runAgentsScan_shape (initState ags)))
      (length_runAgentsScan _) hinit
  induction hreach with
  | refl => exact hstart
  | tail hr hstep ih => exact step_noHalt hstep ih

/-- A crash-free scan invocation started with a zero report counter leaves
the counter at 1 exactly when nothing remains in flight. -/
theorem runAgentsScan_report (s : AgencyState) (hInv : Inv s)
    (hr : s.reportCount = 0) :
    (runAgentsScan s).crashed = false →
    (runAgentsScan s).reportCount =
      if (runAgentsScan s).queue = [] then 1 else 0 := by
  unfold runAgentsScan
  by_cases hcr : s.crashed = true
  . rw [if_pos hcr]
    intro hcf
    rw [hcf] at hcr
    exact absurd hcr (by decide)
  . rw [if_neg hcr]
    exact scanFrom_report _ s hInv hr

/-- One completion step preserves the report bookkeeping in runs without
halting failures. -/
theorem runBody_report (s : AgencyState) (k : Nat) (hInv : Inv s)
    (hn : NoHaltState s) (hk : k < s.queue.length)
    (hR : s.reportCount = if s.queue = [] then 1 else 0) :
    (runBody s k).crashed = false →
    (runBody s k).reportCount = if (runBody s k).queue = [] then 1 else 0 := by
  intro hcf
  have hqe : ¬s.queue = [] := by
    intro hq
    rw [hq] at hk
    exact absurd hk (by simp)
  have hr0 : s.reportCount = 0 := by
    rw [hR, if_neg hqe]
  obtain ⟨i, hq⟩ : ∃ i, s.queue[k]? = some i :=
    ⟨s.queue[k], List.getElem?_eq_getElem hk⟩
  have hlt : i < s.agents.length := hInv.1 i (List.getElem?_mem hq)
  obtain ⟨a, ha⟩ : ∃ a, s.agents[i]? = some a :=
    ⟨s.agents[i], List.getElem?_eq_getElem hlt⟩
  have hnb : (a.haltsExecution && (bodyOutcome a).2) = false := by
    cases hout : a.funcOutcome with
    | retVal v =>
      have : (bodyOutcome a).2 = false := by simp [bodyOutcome, hout]
      rw [this]
      simp
    | throws =>
      have hh : ¬(a.haltsExecution = true ∧ a.funcOutcome = .throws) :=
        hn a (List.getElem?_mem ha)
      have : a.haltsExecution = false := by
        cases hhe : a.haltsExecution with
        | false => rfl
        | true => exact absurd ⟨hhe, hout⟩ hh
      rw [this]
      simp
  rw [runBody_eq s k i a hq ha] at hcf ⊢
  rw [hnb] at hcf ⊢
  simp only [Bool.false_eq_true, if_false] at hcf ⊢
  exact runAgentsScan_report _
    (eraseSet_inv s k i a hInv hq ha s.reportCount s.execErrors s.crashed) hr0 hcf

/-- Start-of-run report bookkeeping. -/
theorem startState_report (ags : List AgentRec) (hwf : WfInit ags) :
    (startState ags).crashed = false →
    (startState ags).reportCount =
      if (startState ags).queue = [] then 1 else 0 := by
  intro hcf
  exact runAgentsScan_report _ (initState_inv ags hwf) rfl hcf

/-- Along every crash-free run without halting failures, the report counter
reads 1 exactly when no deferred body remains queued, 0 otherwise. -/
theorem reachable_report (ags : List AgentRec) (hwf : WfInit ags)
    (hnh : NoHalt ags) {s : AgencyState} (hreach : Reachable ags s) :
    s.crashed = false →
    s.reportCount = if s.queue = [] then 1 else 0 := by
  induction hreach with
  | refl => exact startState_report ags hwf
  | tail hr hstep ih =>
    rename_i s1 s2
    intro hcf
    cases hstep with
    | body k hk hc =>
      exact runBody_report s1 k (reachable_inv ags hwf hr)
        (reachable_noHalt ags hnh hr) hk (ih hc) hcf

/-! ## Concrete registries for scheduler runs -/

/-- A halting failer: `haltOnFailure` set, unit of work throws. -/
def haltAgent : AgentRec :=
  { id := "hx", expression := "", toks := [], deps := [], canExecute := true,
    executed := false, waitingExec := false, deffDepCheck := false,
    haltsExecution := true, hasFunc := true, funcOutcome := .throws,
    result := .undefined, dispatchCount := 0 }

/-- An independent agent whose completion can interleave after a halt. -/
def slowAgent : AgentRec :=
  { id := "hy", expression := "", toks := [], deps := [], canExecute := true,
    executed := false, waitingExec := false, deffDepCheck := false,
    haltsExecution := false, hasFunc := true, funcOutcome := .retVal (.num 1),
    result := .undefined, dispatchCount := 0 }

/-- An agent depending on `slowAgent`, pending while the halt fires. -/
def lateAgent : AgentRec :=
  { id := "hz", expression := "hy", toks := ["hy"], deps := ["hy"],
    canExecute := true, executed := false, waitingExec := false,
    deffDepCheck := false, haltsExecution := false, hasFunc := true,
    funcOutcome := .retVal (.num 2), result := .undefined, dispatchCount := 0 }

/-- An agent whose expression references an id absent from the registry. -/
def starveAgent : AgentRec :=
  { id := "sx", expression := "sy", toks := ["sy"], deps := ["sy"],
    canExecute := true, executed := false, waitingExec := false,
    deffDepCheck := false, haltsExecution := false, hasFunc := true,
    funcOutcome := .retVal (.num 1), result := .undefined, dispatchCount := 0 }

/-- An enabled agent whose work function was never set. -/
def funclessAgent : AgentRec :=
  { id := "fx", expression := "", toks := [], deps := [], canExecute := true,
    executed := false, waitingExec := false, deffDepCheck := false,
    haltsExecution := false, hasFunc := false, funcOutcome := .retVal .null,
    result := .undefined, dispatchCount := 0 }

/-- An agent whose expression negates the funcless agent's id. -/
def notDepAgent : AgentRec :=
  { id := "fa", expression := "!fx", toks := ["!", "fx"], deps := ["fx"],
    canExecute := true, executed := false, waitingExec := false,
    deffDepCheck := false, haltsExecution := false, hasFunc := true,
    funcOutcome := .retVal (.num 3), result := .undefined, dispatchCount := 0 }

/-- C2: for every task and every interleaving of scheduler scans and task
completions in a run, the task undergoes the dispatch transition
(`waitingExec` set and the work handed to deferred execution) at most once;
once dispatched or completed it is never dispatched again (the ghost
dispatch counter never exceeds 1 in any reachable state). -/
theorem C2_dispatch_at_most_once (ags : List AgentRec) (s : AgencyState)
    (hwf : WfInit ags) (hreach : Reachable ags s) :
    ∀ (i : Nat) (a : AgentRec), s.agents[i]? = some a → a.dispatchCount ≤ 1 := by
  intro i a ha
  obtain ⟨_, hag⟩ := reachable_inv ags hwf hreach
  obtain ⟨_, _, h3, _⟩ := hag i a ha
  rw [h3]
  split <;> omega

/-- Witness for C2: a one-agent run right after the initial scan. -/
theorem C2_witness :
    ∃ a, (startState [depAgent "w2a" false]).agents[0]? = some a ∧
      a.dispatchCount ≤ 1 :=
  ⟨{ depAgent "w2a" false with waitingExec := true, dispatchCount := 1 }, rfl,
    C2_dispatch_at_most_once [depAgent "w2a" false] _
      (by intro b hb; fin_cases hb; exact ⟨rfl, rfl, rfl⟩)
      Relation.ReflTransGen.refl 0 _ rfl⟩

/-- Counterexample for C3: after the initial scan of a registry whose only
task references a missing id, the terminal report has already fired although
that task is still Pending, enabled and undispatched; and in a halt run the
report fires twice (once at the halt, once when the in-flight task drains). -/
theorem C3_counterexample :
    (startState [starveAgent]).reportCount = 1 ∧
    ((startState [starveAgent]).agents[0]?.map
      (fun a => !a.executed && !a.waitingExec && a.canExecute)) = some true ∧
    (runBody (runBody (startState [haltAgent, slowAgent]) 0) 0).reportCount = 2 :=
  ⟨rfl, rfl, rfl⟩

/-- C3 (amended): in every crash-free run in which no haltOnFailure task
fails, the terminal report has fired exactly once precisely when no task is
Dispatched (the completion check inspects only `waitingExec`), and has not
fired while any task is in flight; tasks still Pending and undispatched do
not delay or prevent it. -/
theorem C3_terminal_report (ags : List AgentRec) (s : AgencyState)
    (hwf : WfInit ags) (hnh : NoHalt ags) (hreach : Reachable ags s)
    (hcf : s.crashed = false) :
    (s.reportCount = if s.queue = [] then 1 else 0) ∧
    (hasAgencyCompleted s.agents = true ↔ s.queue = []) :=
  ⟨reachable_report ags hwf hnh hreach hcf,
   completed_iff_queue_nil s (reachable_inv ags hwf hreach)⟩

/-- Witness for C3: a one-agent run right after the initial scan. -/
theorem C3_witness :
    ((startState [depAgent "w3" false]).reportCount =
      if (startState [depAgent "w3" false]).queue = [] then 1 else 0) ∧
    (hasAgencyCompleted (startState [depAgent "w3" false]).agents = true ↔
      (startState [depAgent "w3" false]).queue = []) :=
  C3_terminal_report [depAgent "w3" false] _
    (by intro a ha; fin_cases ha; exact ⟨rfl, rfl, rfl⟩)
    (by intro a ha; fin_cases ha; rintro ⟨h, _⟩; exact absurd h (by decide))
    Relation.ReflTransGen.refl rfl

/-- Counterexample for C4: with a halting failer, an in-flight independent
task and a pending dependent task, the halt fires the report while the
dependent task is still Pending — but the in-flight task's completion later
performs another scan which dispatches it. -/
theorem C4_counterexample :
    (runBody (startState [haltAgent, slowAgent, lateAgent]) 0).reportCount = 1 ∧
    ((runBody (startState [haltAgent, slowAgent, lateAgent]) 0).agents[2]?.map
      (fun a => a.waitingExec || a.executed)) = some false ∧
    ((runBody (runBody (startState [haltAgent, slowAgent, lateAgent]) 0) 0).agents[2]?.map
      (fun a => a.waitingExec)) = some true :=
  ⟨rfl, rfl, rfl⟩

/-- C4 (amended): when a task with `haltOnFailure = true` fails, its own
completion performs no scheduler scan — the report fires immediately, the
registry is untouched apart from that task's own record, and nothing is
dispatched or logged by this completion; if no other task is in flight at
that moment the run is over: no further step exists and every Pending task
remains permanently un-dispatched. -/
theorem C4_halt_behaviour (s : AgencyState) (k i : Nat) (a : AgentRec)
    (hq : s.queue[k]? = some i) (ha : s.agents[i]? = some a)
    (hhalt : a.haltsExecution = true) (hthrow : a.funcOutcome = .throws) :
    (runBody s k).reportCount = s.reportCount + 1 ∧
    (runBody s k).queue = s.queue.eraseIdx k ∧
    (runBody s k).execErrors = s.execErrors ∧
    (runBody s k).crashed = s.crashed ∧
    (∀ j, j ≠ i → (runBody s k).agents[j]? = s.agents[j]?) ∧
    (s.queue.length = 1 →
      (runBody s k).queue = [] ∧ ∀ t, ¬Step (runBody s k) t) := by
  have hbo : (bodyOutcome a).2 = true := by simp [bodyOutcome, hthrow]
  have hcond : (a.haltsExecution && (bodyOutcome a).2) = true := by
    rw [hhalt, hbo]
    rfl
  rw [runBody_eq s k i a hq ha, if_pos hcond]
  have hk : k < s.queue.length := (List.getElem?_eq_some.mp hq).1
  have herase : s.queue.length = 1 → s.queue.eraseIdx k = [] := by
    intro hlen
    have hz : (s.queue.eraseIdx k).length = 0 := by
      rw [List.length_eraseIdx]
      rw [if_pos hk, hlen]
    exact List.eq_nil_of_length_eq_zero hz
  refine ⟨rfl, rfl, rfl, rfl, ?_, ?_⟩
  . intro j hij
    show (s.agents.set i _)[j]? = s.agents[j]?
    exact List.getElem?_set_ne (fun h => hij h.symm)
  . intro hlen
    refine ⟨herase hlen, ?_⟩
    intro t hstep
    cases hstep with
    | body k2 hk2 hc2 =>
      have hk2' : k2 < (s.queue.eraseIdx k).length := hk2
      rw [herase hlen] at hk2'
      exact absurd hk2' (by simp)

/-- Witness for C4: the halting failer alone in flight. -/
theorem C4_witness :
    (runBody (startState [haltAgent]) 0).reportCount =
      (startState [haltAgent]).reportCount + 1 ∧
    (runBody (startState [haltAgent]) 0).queue = [] :=
  ⟨(C4_halt_behaviour (startState [haltAgent]) 0 0
      { haltAgent with waitingExec := true, dispatchCount := 1 }
      rfl rfl rfl rfl).1,
   ((C4_halt_behaviour (startState [haltAgent]) 0 0
      { haltAgent with waitingExec := true, dispatchCount := 1 }
      rfl rfl rfl rfl).2.2.2.2.2 rfl).1⟩

/-- Counterexample for C10: a task whose expression references the funcless
task (here by negation, `"!fx"`) is not "never ready" — it is ready and
dispatched on the very first scan, while the funcless task has not run. -/
theorem C10_counterexample :
    ((startState [funclessAgent, notDepAgent]).agents[1]?.map
      (fun a => a.waitingExec)) = some true ∧
    ((startState [funclessAgent, notDepAgent]).agents[0]?.map
      (fun a => a.executed || a.waitingExec)) = some false :=
  ⟨rfl, rfl⟩

/-- C10 (amended): invoking `execute` on a task whose work function was never
set changes no state; in every reachable state such a task has never become
Dispatched or Completed (so every scan re-considers it), its readiness
lookup always reports it not-ready (so a task whose expression is exactly
its id is never ready — silent starvation), and — because the
run-completion check inspects only `waitingExec` — such a permanently
pending task does not prevent the terminal report from firing. -/
theorem C10_funcless_agents :
    (∀ (s : AgencyState) (i : Nat) (a : AgentRec),
       s.agents[i]? = some a → a.hasFunc = false → executeAgent s i = s) ∧
    (∀ (ags : List AgentRec) (s : AgencyState), WfInit ags → Reachable ags s →
       ∀ (i : Nat) (a : AgentRec), s.agents[i]? = some a → a.hasFunc = false →
         a.executed = false ∧ a.waitingExec = false ∧
         ∀ (curr : AgentRec), s.agents.find? (fun x => x.id = a.id) = some a →
           hasAgentExecuted s.agents a.id curr = .ok false) ∧
    (∀ (ags : List AgentRec) (s : AgencyState), WfInit ags → NoHalt ags →
       Reachable ags s → s.crashed = false → s.queue = [] →
       s.reportCount = 1) := by
  refine ⟨?_, ?_, ?_⟩
  . intro s i a ha hf
    simp only [executeAgent, ha]
    rw [if_neg (show ¬a.hasFunc = true by rw [hf]; simp)]
  . intro ags s hwf hreach i a ha hf
    obtain ⟨_, hag⟩ := reachable_inv ags hwf hreach
    obtain ⟨_, _, _, h4⟩ := hag i a ha
    obtain ⟨hw, hx⟩ := h4 hf
    refine ⟨hx, hw, ?_⟩
    intro curr hfind
    rw [hasAgentExecuted_find s.agents a.id curr a hfind, hx, hw]
    cases curr.deffDepCheck <;> simp
  . intro ags s hwf hnh hreach hcf hq
    rw [reachable_report ags hwf hnh hreach hcf, if_pos hq]

/-- Witness for C10: the funcless agent alone — `execute` is a no-op and the
report nevertheless fires on the initial scan. -/
theorem C10_witness :
    executeAgent (startState [funclessAgent]) 0 = startState [funclessAgent] ∧
    (startState [funclessAgent]).reportCount = 1 :=
  ⟨C10_funcless_agents.1 (startState [funclessAgent]) 0 funclessAgent rfl rfl,
   C10_funcless_agents.2.2 [funclessAgent] _
     (by intro a ha; fin_cases ha; exact ⟨rfl, rfl, rfl⟩)
     (by intro a ha; fin_cases ha; rintro ⟨h, _⟩; exact absurd h (by decide))
     Relation.ReflTransGen.refl rfl rfl⟩

/-! ## Invalid dependency references (C6) and result recording (C9) -/

/-- When no registry entry carries the looked-up id, `hasAgentExecuted`
falls through its loop and returns the `InvalidDependency` error. -/
theorem hasAgentExecuted_error (agents : List AgentRec) (dep : String)
    (curr : AgentRec) (hmiss : ∀ b ∈ agents, b.id ≠ dep) :
    hasAgentExecuted agents dep curr = .error (.invalidDependency dep) := by
  induction agents with
  | nil => rfl
  | cons ag rest ih =>
    unfold hasAgentExecuted
    rw [if_neg (hmiss ag (List.mem_cons_self ag rest))]
    exact ih (fun b hb => hmiss b (List.mem_cons_of_mem ag hb))

/-- The evaluator's substitution loop aborts with an error whenever some
dependency id is absent from the registry. -/
theorem evalGo_missing (agents : List AgentRec) (a : AgentRec) :
    ∀ (ds : List String) (ret : List Tok),
      (∃ d ∈ ds, ∀ b ∈ agents, b.id ≠ d) →
      ∃ e, evalGo agents a ds ret = .error e := by
  intro ds
  induction ds with
  | nil =>
    intro ret h
    obtain ⟨d, hd, _⟩ := h
    cases hd
  | cons d0 ds ih =>
    intro ret h
    cases hlook : hasAgentExecuted agents d0 a with
    | error e =>
      refine ⟨e, ?_⟩
      unfold evalGo
      rw [hlook]
    | ok b =>
      obtain ⟨d, hd, hmiss⟩ := h
      rcases List.mem_cons.mp hd with hd0 | hds
      . subst hd0
        rw [hasAgentExecuted_error agents d a hmiss] at hlook
        cases hlook
      . obtain ⟨e, he⟩ := ih (replaceByLogicalValue ret d0 b) ⟨d, hds, hmiss⟩
        refine ⟨e, ?_⟩
        unfold evalGo
        rw [hlook]
        exact he

theorem evaluateLogicalExpression_missing (agents : List AgentRec)
    (a : AgentRec) (h : ∃ d ∈ a.deps, ∀ b ∈ agents, b.id ≠ d) :
    ∃ e, evaluateLogicalExpression agents a = .error e :=
  evalGo_missing agents a a.deps (a.toks.map Tok.str) h

/-- The scan iteration for an eligible agent whose evaluation errors only
logs an execution event: nothing else in the state changes. -/
theorem scanAgent_logs (s : AgencyState) (i : Nat) (a : AgentRec)
    (ha : s.agents[i]? = some a)
    (hx1 : a.executed = false) (hx2 : a.waitingExec = false)
    (hx3 : a.canExecute = true) (hxe : ¬a.expression = "")
    (herr : ∃ e, evaluateLogicalExpression s.agents a = .error e) :
    scanAgent s i = { s with execErrors := s.execErrors ++ [i] } := by
  have he : (!a.executed && !a.waitingExec && a.canExecute) = true := by
    rw [hx1, hx2, hx3]
    rfl
  obtain ⟨e, he'⟩ := herr
  simp only [scanAgent, ha]
  rw [if_pos he, if_neg hxe, he']

/-- A scan iteration for one agent leaves every other agent's record, queue
count and error count untouched. -/
theorem scanAgent_untouched (s : AgencyState) (i j : Nat) (hij : i ≠ j) :
    (scanAgent s i).agents[j]? = s.agents[j]? ∧
    (scanAgent s i).execErrors.count j = s.execErrors.count j ∧
    (scanAgent s i).queue.count j = s.queue.count j := by
  have hexec : (executeAgent s i).agents[j]? = s.agents[j]? ∧
      (executeAgent s i).execErrors.count j = s.execErrors.count j ∧
      (executeAgent s i).queue.count j = s.queue.count j := by
    cases h : s.agents[i]? with
    | none => simp [executeAgent, h]
    | some a =>
      simp only [executeAgent, h]
      by_cases hf : a.hasFunc = true
      . rw [if_pos hf]
        refine ⟨List.getElem?_set_ne hij, rfl, ?_⟩
        show (s.queue ++ [i]).count j = s.queue.count j
        rw [List.count_append]
        have hz : List.count j [i] = 0 := by simp [Ne.symm hij]
        rw [hz]
        omega
      . rw [if_neg hf]
        exact ⟨rfl, rfl, rfl⟩
  cases h : s.agents[i]? with
  | none => simp [scanAgent, h]
  | some a =>
    simp only [scanAgent, h]
    by_cases he : (!a.executed && !a.waitingExec && a.canExecute) = true
    . rw [if_pos he]
      by_cases hxp : a.expression = ""
      . rw [if_pos hxp]
        exact hexec
      . rw [if_neg hxp]
        cases evaluateLogicalExpression s.agents a with
        | error e =>
          refine ⟨rfl, ?_, rfl⟩
          show (s.execErrors ++ [i]).count j = s.execErrors.count j
          rw [List.count_append]
          have hz : List.count j [i] = 0 := by simp [Ne.symm hij]
          rw [hz]
          omega
        | ok ob =>
          cases ob with
          | none => exact ⟨rfl, rfl, rfl⟩
          | some b =>
            cases b with
            | true =>
              simp only [if_pos rfl]
              exact hexec
            | false => exact ⟨rfl, rfl, rfl⟩
    . rw [if_neg he]
      exact ⟨rfl, rfl, rfl⟩

/-- A scan over indices avoiding `j` leaves agent `j`'s record, queue count
and error count untouched. -/
theorem scanFrom_untouched (l : List Nat) :
    ∀ (s : AgencyState) (j : Nat), j ∉ l →
      (scanFrom s l).agents[j]? = s.agents[j]? ∧
      (scanFrom s l).execErrors.count j = s.execErrors.count j ∧
      (scanFrom s l).queue.count j = s.queue.count j := by
  induction l with
  | nil =>
    intro s j _
    unfold scanFrom
    by_cases h : hasAgencyCompleted s.agents = true
    . rw [if_pos h]; exact ⟨rfl, rfl, rfl⟩
    . rw [if_neg h]; exact ⟨rfl, rfl, rfl⟩
  | cons x xs ih =>
    intro s j hj
    have hxj : x ≠ j := fun h => hj (h ▸ List.mem_cons_self x xs)
    have hstep := scanAgent_untouched s x j hxj
    unfold scanFrom
    by_cases h : (scanAgent s x).crashed = true
    . rw [if_pos h]; exact hstep
    . rw [if_neg h]
      obtain ⟨h1, h2, h3⟩ := ih (scanAgent s x) j
        (fun hmem => hj (List.mem_cons_of_mem x hmem))
      exact ⟨h1.trans hstep.1, h2.trans hstep.2.1, h3.trans hstep.2.2⟩

/-- Absence of an id from the registry is preserved by any transformation
that keeps each record's immutable fields. -/
theorem missing_persists {s t : AgencyState}
    (hlen : t.agents.length = s.agents.length)
    (hshape : ∀ (j : Nat) (a0 : AgentRec), s.agents[j]? = some a0 →
      ∃ (w : Bool) (dc : Nat), t.agents[j]? = some { a0 with waitingExec := w, dispatchCount := dc })
    (d : String) (hmiss : ∀ b ∈ s.agents, b.id ≠ d) :
    ∀ b ∈ t.agents, b.id ≠ d := by
  intro b hb
  obtain ⟨j, hj⟩ := List.mem_iff_getElem?.mp hb
  have hjl : j < s.agents.length := by
    rw [← hlen]
    exact (List.getElem?_eq_some.mp hj).1
  obtain ⟨a0, ha0⟩ : ∃ a0, s.agents[j]? = some a0 :=
    ⟨s.agents[j], List.getElem?_eq_getElem hjl⟩
  obtain ⟨w, dc, ht⟩ := hshape j a0 ha0
  rw [hj] at ht
  injection ht with ht
  rw [ht]
  exact hmiss a0 (List.getElem?_mem ha0)

/-- Core of C6: scanning a list of indices that visits the starving agent
exactly once logs exactly one invalid-dependency event for it and leaves it
untouched and undispatched. -/
theorem scanFrom_c6 (l : List Nat) :
    ∀ (s : AgencyState) (i : Nat) (a : AgentRec),
      l.count i = 1 →
      s.agents[i]? = some a →
      a.executed = false → a.waitingExec = false → a.canExecute = true →
      ¬a.expression = "" →
      (∃ d ∈ a.deps, ∀ b ∈ s.agents, b.id ≠ d) →
      (scanFrom s l).crashed = false →
      (scanFrom s l).agents[i]? = some a ∧
      (scanFrom s l).execErrors.count i = s.execErrors.count i + 1 ∧
      (scanFrom s l).queue.count i = s.queue.count i := by
  induction l with
  | nil =>
    intro s i a hcount
    simp at hcount
  | cons x xs ih =>
    intro s i a hcount ha hx1 hx2 hx3 hxe hmiss hcf
    by_cases hxi : x = i
    . subst hxi
      have hxs : x ∉ xs := by
        rw [List.count_cons_self] at hcount
        have : xs.count x = 0 := by omega
        intro hmem
        have := List.count_pos_iff.mpr hmem
        omega
      have herr := evaluateLogicalExpression_missing s.agents a
        (by obtain ⟨d, hd, hm⟩ := hmiss; exact ⟨d, hd, hm⟩)
      have hlog := scanAgent_logs s x a ha hx1 hx2 hx3 hxe herr
      unfold scanFrom at hcf ⊢
      rw [hlog] at hcf ⊢
      have hcr : ¬({ s with execErrors := s.execErrors ++ [x] } : AgencyState).crashed = true := by
        intro hcr
        rw [if_pos hcr] at hcf
        rw [hcr] at hcf
        cases hcf
      rw [if_neg hcr] at hcf ⊢
      obtain ⟨h1, h2, h3⟩ := scanFrom_untouched xs _ x hxs
      refine ⟨h1.trans ha, ?_, h3⟩
      rw [h2]
      show (s.execErrors ++ [x]).count x = s.execErrors.count x + 1
      rw [List.count_append]
      simp
    . have hstep := scanAgent_untouched s x i hxi
      have hshape := scanAgent_shape s x
      have hmiss2 : ∃ d ∈ a.deps, ∀ b ∈ (scanAgent s x).agents, b.id ≠ d := by
        obtain ⟨d, hd, hm⟩ := hmiss
        exact ⟨d, hd, missing_persists (length_scanAgent s x) hshape d hm⟩
      unfold scanFrom at hcf ⊢
      by_cases h : (scanAgent s x).crashed = true
      . rw [if_pos h] at hcf
        rw [hcf] at h
        cases h
      . rw [if_neg h] at hcf ⊢
        have hcount2 : xs.count i = 1 := by
          rw [List.count_cons_of_ne (fun hh => hxi hh.symm)] at hcount
          exact hcount
        obtain ⟨h1, h2, h3⟩ := ih (scanAgent s x) i a hcount2
          (hstep.1.trans ha) hx1 hx2 hx3 hxe hmiss2 hcf
        exact ⟨h1, by rw [h2, hstep.2.1], by rw [h3, hstep.2.2]⟩

/-- C6: an enabled pending task whose expression references an identifier
present in no registry entry is, on each scheduler scan, reported once as an
invalid-dependency execution event and skipped: it is not dispatched, not
disabled, its record is unchanged, and the missing reference persists, so
the same failure recurs on every subsequent scan. -/
theorem C6_invalid_reference (s : AgencyState) (i : Nat) (a : AgentRec)
    (ha : s.agents[i]? = some a)
    (hx1 : a.executed = false) (hx2 : a.waitingExec = false)
    (hx3 : a.canExecute = true) (hxe : ¬a.expression = "")
    (hmiss : ∃ d ∈ a.deps, ∀ b ∈ s.agents, b.id ≠ d)
    (hc : s.crashed = false)
    (hcf : (runAgentsScan s).crashed = false) :
    (runAgentsScan s).agents[i]? = some a ∧
    (runAgentsScan s).execErrors.count i = s.execErrors.count i + 1 ∧
    (runAgentsScan s).queue.count i = s.queue.count i ∧
    (∃ d ∈ a.deps, ∀ b ∈ (runAgentsScan s).agents, b.id ≠ d) := by
  have hlt : i < s.agents.length := (List.getElem?_eq_some.mp ha).1
  have hcount : (List.range s.agents.length).count i = 1 :=
    List.count_eq_one_of_mem (List.nodup_range _) (List.mem_range.mpr hlt)
  have hmiss2 : ∃ d ∈ a.deps, ∀ b ∈ (runAgentsScan s).agents, b.id ≠ d := by
    obtain ⟨d, hd, hm⟩ := hmiss
    exact ⟨d, hd,
      missing_persists (length_runAgentsScan s) (runAgentsScan_shape s) d hm⟩
  unfold runAgentsScan at hcf ⊢
  rw [if_neg (by rw [hc]; simp)] at hcf ⊢
  obtain ⟨h1, h2, h3⟩ := scanFrom_c6 (List.range s.agents.length) s i a
    hcount ha hx1 hx2 hx3 hxe hmiss hcf
  refine ⟨h1, h2, h3, ?_⟩
  obtain ⟨d, hd, hm⟩ := hmiss2
  refine ⟨d, hd, ?_⟩
  intro b hb
  apply hm b
  unfold runAgentsScan
  rw [if_neg (by rw [hc]; simp)]
  exact hb

/-- Witness for C6: the starving agent alone in a registry. -/
theorem C6_witness :
    (runAgentsScan (initState [starveAgent])).agents[0]? = some starveAgent ∧
    (runAgentsScan (initState [starveAgent])).execErrors.count 0 =
      (initState [starveAgent]).execErrors.count 0 + 1 ∧
    (runAgentsScan (initState [starveAgent])).queue.count 0 =
      (initState [starveAgent]).queue.count 0 ∧
    (∃ d ∈ starveAgent.deps,
      ∀ b ∈ (runAgentsScan (initState [starveAgent])).agents, b.id ≠ d) :=
  C6_invalid_reference (initState [starveAgent]) 0 starveAgent rfl rfl rfl rfl
    (by decide)
    ⟨"sy", by simp [starveAgent], by
      intro b hb
      have hb2 : b ∈ [starveAgent] := hb
      rcases List.mem_singleton.mp hb2 with rfl
      simp [starveAgent]⟩
    rfl rfl

/-- A zero-returning agent (falsy result). -/
def zeroAgent : AgentRec :=
  { id := "rz", expression := "", toks := [], deps := [], canExecute := true,
    executed := false, waitingExec := false, deffDepCheck := false,
    haltsExecution := false, hasFunc := true, funcOutcome := .retVal (.num 0),
    result := .undefined, dispatchCount := 0 }

/-- A ten-returning agent (truthy result). -/
def tenAgent : AgentRec :=
  { id := "rt", expression := "", toks := [], deps := [], canExecute := true,
    executed := false, waitingExec := false, deffDepCheck := false,
    haltsExecution := false, hasFunc := true, funcOutcome := .retVal (.num 10),
    result := .undefined, dispatchCount := 0 }

/-- Counterexample for C9: a unit of work returning the falsy value `0` has
`null` recorded as its result (`setResult` replaces falsy values), and a
declared dependent querying it receives `null`, not `0`. -/
theorem C9_counterexample :
    ((runBody (startState [zeroAgent]) 0).agents[0]?.map (fun x => x.result)) =
      some JSValue.null ∧
    JSValue.null ≠ JSValue.num 0 ∧
    getValueOfAgent (runBody (startState [zeroAgent]) 0).agents
      { zeroAgent with id := "q", deps := ["rz"] } "rz" = JSValue.null :=
  ⟨rfl, by decide, rfl⟩

/-- C9 (amended): when a task's unit of work completes successfully
returning `v`, the recorded result is `v` if `v` is truthy and `null`
otherwise (`setResult` nulls falsy values such as `0` or `false`); a task
that declares it as a dependency and queries its value receives the recorded
result (so `v = 10` is received as `10`), and querying a non-dependency id
returns `null`. -/
theorem C9_result_recording :
    (∀ (s : AgencyState) (k i : Nat) (a : AgentRec) (v : JSValue),
       s.queue[k]? = some i → s.agents[i]? = some a →
       a.funcOutcome = .retVal v →
       ((runBody s k).agents[i]?).map (fun x => (x.result, x.executed)) =
         some (if v.truthy then v else .null, true)) ∧
    (∀ (agents : List AgentRec) (caller : AgentRec) (dep : String)
       (da : AgentRec), dep ∈ caller.deps →
       agents.find? (fun x => x.id = dep) = some da →
       getValueOfAgent agents caller dep = da.result) ∧
    (∀ (agents : List AgentRec) (caller : AgentRec) (dep : String),
       dep ∉ caller.deps → getValueOfAgent agents caller dep = .null) := by
  refine ⟨?_, ?_, ?_⟩
  . intro s k i a v hq ha hv
    have hbo1 : (bodyOutcome a).1 = if v.truthy then v else .null := by
      simp [bodyOutcome, hv]
    have hcond : (a.haltsExecution && (bodyOutcome a).2) = false := by
      have : (bodyOutcome a).2 = false := by simp [bodyOutcome, hv]
      rw [this]
      simp
    rw [runBody_eq s k i a hq ha, hcond]
    simp only [Bool.false_eq_true, if_false]
    have hlt : i < s.agents.length := (List.getElem?_eq_some.mp ha).1
    have hmid : (s.agents.set i { a with result := (bodyOutcome a).1, executed := true, waitingExec := false })[i]? =
        some { a with result := (bodyOutcome a).1, executed := true, waitingExec := false } :=
      List.getElem?_set_eq_of_lt _ hlt
    obtain ⟨w, dc, hsh⟩ := runAgentsScan_shape
      { agents := s.agents.set i { a with result := (bodyOutcome a).1, executed := true, waitingExec := false },
        queue := s.queue.eraseIdx k, reportCount := s.reportCount,
        execErrors := s.execErrors, crashed := s.crashed } i _ hmid
    rw [hsh]
    simp [hbo1]
  . intro agents caller dep da hdep hfind
    unfold getValueOfAgent getAgentValue
    rw [if_pos hdep, hfind]
  . intro agents caller dep hdep
    unfold getValueOfAgent
    rw [if_neg hdep]

/-- Witness for C9: the value 10 is recorded as-is and received as-is. -/
theorem C9_witness :
    ((runBody (startState [tenAgent]) 0).agents[0]?).map
      (fun x => (x.result, x.executed)) = some (JSValue.num 10, true) ∧
    getValueOfAgent (runBody (startState [tenAgent]) 0).agents
      { tenAgent with id := "q", deps := ["rt"] } "rt" = JSValue.num 10 :=
  ⟨C9_result_recording.1 (startState [tenAgent]) 0 0
      { tenAgent with waitingExec := true, dispatchCount := 1 }
      (JSValue.num 10) rfl rfl rfl,
   C9_result_recording.2.1 (runBody (startState [tenAgent]) 0).agents
      { tenAgent with id := "q", deps := ["rt"] } "rt"
      { tenAgent with waitingExec := false, dispatchCount := 1, executed := true, result := JSValue.num 10 }
      (by simp) rfl⟩

end Agency